import Mathlib

/-!
Verification development for the sigil_bs4 element tree
(`src/Resource_Files/plugin_launchers/python/sigil_bs4/element.py`).

The Python page-element tree is embedded shallowly: nodes live in an arena
(a list indexed by node id) and every structural operation is a function
from state to a result that carries the state both on success and on
failure (Python exceptions leave the partially mutated heap behind, so an
error result must remember the state at the moment of the raise).

Python object identity is the arena index; Python `==`/`!=` on page
elements is the recursive value equality implemented by `Tag.__eq__` /
`str.__eq__` and is modelled by `valueEqL` below.
-/

namespace Bs

/-- The two kinds of page element: `Tag` and `NavigableString`. -/
inductive NKind where
  | tag
  | nav
deriving DecidableEq, Repr

/-- An attribute value: a plain string, a list of strings (multi-valued
attributes such as `class`), or Python `None` (bare/boolean attribute). -/
inductive AttrVal where
  | str (v : String)
  | lst (vs : List String)
  | nil
deriving DecidableEq, Repr

/-- A page element.  `text` is the payload of a `NavigableString`;
`contents` is the ordered list of owned child ids; `parent`,
`prevSib`/`nextSib`, `prevEl`/`nextEl` are the non-owning navigation
links of the Python object.  `isXml` models the `is_xml` attribute that
only the synthetic root carries (`getattr(self, 'is_xml', False)`). -/
structure Node where
  kind : NKind := .tag
  name : String := ""
  text : String := ""
  attrs : List (String × AttrVal) := []
  contents : List Nat := []
  parent : Option Nat := none
  prevSib : Option Nat := none
  nextSib : Option Nat := none
  prevEl : Option Nat := none
  nextEl : Option Nat := none
  canBeEmpty : Bool := false
  hidden : Bool := false
  isXml : Bool := false
  pfx : Option String := none
deriving DecidableEq, Repr

instance : Inhabited Node := ⟨{}⟩

/-- The whole heap of page elements; a node id is an index into `nodes`. -/
structure St where
  nodes : List Node
deriving DecidableEq, Repr

/-- Read the node stored at id `i` (a dangling id reads as the default
node; all reachable states only use valid ids). -/
def getN (s : St) (i : Nat) : Node := s.nodes.getD i {}

/-- Write the node stored at id `i`. -/
def setN (s : St) (i : Nat) (nd : Node) : St := ⟨s.nodes.set i nd⟩

/-- Python exceptions raised by this file's code paths. -/
inductive Err where
  | valueError
  | attrError
  | indexError
  | typeError
  | notImplError
  | fuelError
deriving DecidableEq, Repr


/-- The outcome of a structural mutation: the final heap and, when a
Python exception was raised, its kind.  The heap is returned on the
error path too, because a raise leaves the partially mutated heap
behind. -/
abbrev PRes := St × Option Err

/-- `self.parent = v` -/
def updParent (s : St) (i : Nat) (v : Option Nat) : St :=
  setN s i { getN s i with parent := v }

/-- `self.previous_sibling = v` -/
def updPrevSib (s : St) (i : Nat) (v : Option Nat) : St :=
  setN s i { getN s i with prevSib := v }

/-- `self.next_sibling = v` -/
def updNextSib (s : St) (i : Nat) (v : Option Nat) : St :=
  setN s i { getN s i with nextSib := v }

/-- `self.previous_element = v` -/
def updPrevEl (s : St) (i : Nat) (v : Option Nat) : St :=
  setN s i { getN s i with prevEl := v }

/-- `self.next_element = v` -/
def updNextEl (s : St) (i : Nat) (v : Option Nat) : St :=
  setN s i { getN s i with nextEl := v }

/-- `self.contents = l` -/
def updContents (s : St) (i : Nat) (l : List Nat) : St :=
  setN s i { getN s i with contents := l }

/-- Python truthiness of a page element: a `Tag` is always truthy
(`Tag.__bool__`), a `NavigableString` is truthy iff non-empty (`str`). -/
def truthyN (s : St) (i : Nat) : Bool :=
  match (getN s i).kind with
  | .tag => true
  | .nav => (getN s i).text ≠ ""

/-- Truthiness of an optional element (`None` is falsy). -/
def truthyO (s : St) (o : Option Nat) : Bool :=
  match o with
  | none => false
  | some i => truthyN s i

/-- Fuel bound large enough for every traversal of a well-formed forest. -/
def fuelOf (s : St) : Nat := s.nodes.length + 1

/-- Python `==` between two page elements (`Tag.__eq__` compares name,
attributes and contents recursively after an identity shortcut;
`NavigableString` compares payloads; a tag never equals a string). -/
def valueEqL (s : St) : Nat → Nat → Nat → Bool
  | 0, _, _ => false
  | fuel+1, i, j =>
    if i = j then true
    else
      match (getN s i).kind, (getN s j).kind with
      | .tag, .tag =>
        decide ((getN s i).name = (getN s j).name)
        && decide ((getN s i).attrs = (getN s j).attrs)
        && decide ((getN s i).contents.length = (getN s j).contents.length)
        && ((getN s i).contents.zip (getN s j).contents).all
             (fun p => valueEqL s fuel p.1 p.2)
      | .nav, .nav => decide ((getN s i).text = (getN s j).text)
      | _, _ => false

/-- Python `a != b` where `a` is an element and `b` an element or `None`
(`x != None` is `True` for every page element). -/
def valueNeO (s : St) (a : Nat) (b : Option Nat) : Bool :=
  match b with
  | none => true
  | some j => !(valueEqL s (fuelOf s) a j)

/-- Identity-based index of `x` in a contents list (`Tag.index`). -/
def idIdx : List Nat → Nat → Option Nat
  | [], _ => none
  | a :: t, x => if a = x then some 0 else (idIdx t x).map (· + 1)

/-- Insert at a (clamped) index, like `list.insert` after clamping. -/
def insAt : List Nat → Nat → Nat → List Nat
  | l, 0, a => a :: l
  | [], _+1, a => [a]
  | b :: t, k+1, a => b :: insAt t k a

/-- Delete the element at an index (`del l[k]` for `0 ≤ k < len`). -/
def delAt : List Nat → Nat → List Nat
  | [], _ => []
  | _ :: t, 0 => t
  | b :: t, k+1 => b :: delAt t k

/-- The effective index of Python `list.insert(p, x)`: negative indices
count from the end and are clamped at 0; large ones are clamped at `len`. -/
def pyInsIdx (len : Nat) (p : Int) : Nat :=
  if p < 0 then ((len : Int) + p).toNat else min p.toNat len

/-- Python `list.insert(p, a)`. -/
def pyIns (l : List Nat) (p : Int) (a : Nat) : List Nat :=
  insAt l (pyInsIdx l.length p) a

/-- Python `l[p]` for an integer index: negative indices count from the
end; out of range is an `IndexError` (`none`). -/
def pyGetI (l : List Nat) (p : Int) : Option Nat :=
  if p < 0 then
    if (0 : Int) ≤ (l.length : Int) + p then l.get? ((l.length : Int) + p).toNat
    else none
  else l.get? p.toNat

/-- The descent loop of `_last_descendant` (`is_initialized=False` path):
follow the last child while the current node is a tag with contents. -/
def descendLast (s : St) : Nat → Nat → Option Nat
  | 0, _ => none
  | fuel+1, i =>
    if (getN s i).kind = .tag ∧ (getN s i).contents ≠ [] then
      descendLast s fuel ((getN s i).contents.getLast?.getD 0)
    else some i

/-- `self._last_descendant(False)` (fuel exhaustion only where the
Python loop diverges, on heaps with cyclic contents). -/
def lastDescP (s : St) (x : Nat) : Except Err Nat :=
  match descendLast s (fuelOf s) x with
  | some l => .ok l
  | none => .error .fuelError

/-- `self._last_descendant()` (`is_initialized=True, accept_self=True`):
when `self.next_sibling` is truthy the answer is that sibling's
`previous_element` (an `AttributeError` when that link is `None`),
otherwise the last-child descent. -/
def lastDescInitP (s : St) (x : Nat) : Except Err Nat :=
  match (getN s x).nextSib with
  | some sb =>
    if truthyN s sb then
      match (getN s sb).prevEl with
      | some l => .ok l
      | none => .error .attrError
    else lastDescP s x
  | none => lastDescP s x

/-- The document-order healing of `extract`: reconnect
`previous_element` and the successor of the subtree's last descendant
`ld`, guarded by the `!=` (value-inequality) comparisons of the source,
then clear this element's `previous_element` and `ld`'s `next_element`. -/
def elHealF (x ld : Nat) (s : St) : St :=
  let ne := (getN s ld).nextEl
  let pe := (getN s x).prevEl
  let s1 :=
    match pe with
    | some pei => if valueNeO s pei ne then updNextEl s pei ne else s
    | none => s
  let s2 :=
    match ne with
    | some nei => if valueNeO s1 nei pe then updPrevEl s1 nei pe else s1
    | none => s1
  updNextEl (updPrevEl s2 x none) ld none

/-- The sibling healing of `extract`, with the same `!=` guards, then
`self.previous_sibling = self.next_sibling = None`. -/
def sibHealF (x : Nat) (s : St) : St :=
  let ps := (getN s x).prevSib
  let ns := (getN s x).nextSib
  let s1 :=
    match ps with
    | some psi => if valueNeO s psi ns then updNextSib s psi ns else s
    | none => s
  let s2 :=
    match ns with
    | some nsi => if valueNeO s1 nsi ps then updPrevSib s1 nsi ps else s1
    | none => s1
  updNextSib (updPrevSib s2 x none) x none

/-- `PageElement.extract`, translated statement by statement: remove
from the parent's `contents` (identity index), heal the document-order
chain around the subtree, drop the parent link, heal the siblings. -/
def extractF (x : Nat) (s0 : St) : PRes :=
  let delStep : PRes :=
    match (getN s0 x).parent with
    | some p =>
      if (getN s0 p).kind ≠ .tag then (s0, some .attrError)
      else
        match idIdx (getN s0 p).contents x with
        | some i => (updContents s0 p (delAt (getN s0 p).contents i), none)
        | none => (s0, some .valueError)
    | none => (s0, none)
  match delStep with
  | (s1, some e) => (s1, some e)
  | (s1, none) =>
    match lastDescInitP s1 x with
    | .error e => (s1, some e)
    | .ok ld => (sibHealF x (updParent (elHealF x ld s1) x none), none)

/-- The `while parents_next_sibling is None and parent is not None`
climb of `insert`: the `next_sibling` of the nearest ancestor (starting
at the node itself) that has one. -/
def pWalk (s : St) : Nat → Option Nat → Option (Option Nat)
  | _, none => some none
  | 0, some _ => none
  | fuel+1, some p =>
    match (getN s p).nextSib with
    | some ns => some (some ns)
    | none => pWalk s fuel (getN s p).parent

/-- Step A of the insert tail: wire `previous_sibling` and
`previous_element` of the new child (the `if position == 0` branch of
`insert`); `s1` already has the child's parent set. -/
def tailStepA (t nc : Nat) (position : Int) (s1 : St) : PRes :=
  if position = 0 then
    (updPrevEl (updPrevSib s1 nc none) nc (some t), none)
  else
    match pyGetI (getN s1 t).contents (position - 1) with
    | none => (s1, some .indexError)
    | some pc =>
      let s2 := updNextSib (updPrevSib s1 nc (some pc)) pc (some nc)
      match descendLast s2 (fuelOf s2) pc with
      | none => (s2, some .fuelError)
      | some ld => (updPrevEl s2 nc (some ld), none)

/-- Step B: `if new_child.previous_element is not None:
new_child.previous_element.next_element = new_child`. -/
def tailStepB (nc : Nat) (sA : St) : St :=
  match (getN sA nc).prevEl with
  | some pei => updNextEl sA pei (some nc)
  | none => sA

/-- Step C: wire `next_sibling` and the document-order successor of the
child's last descendant `nle` (the `position >= len(contents)` branch
and its sibling branch). -/
def tailStepC (t nc nle : Nat) (position : Int) (sB : St) : PRes :=
  if ((getN sB t).contents.length : Int) ≤ position then
    let sC := updNextSib sB nc none
    match pWalk sC (fuelOf sC) (some t) with
    | none => (sC, some .fuelError)
    | some pns =>
      match pns with
      | some v => (updNextEl sC nle (some v), none)
      | none => (updNextEl sC nle none, none)
  else
    match pyGetI (getN sB t).contents position with
    | none => (sB, some .indexError)
    | some nxc =>
      (updNextEl (updPrevSib (updNextSib sB nc (some nxc)) nxc (some nc))
         nle (some nxc), none)

/-- Step D: `if new_childs_last_element.next_element is not None: …
.previous_element = new_childs_last_element`. -/
def tailStepD (nle : Nat) (sC : St) : St :=
  match (getN sC nle).nextEl with
  | some z => updPrevEl sC z (some nle)
  | none => sC

/-- The second half of `PageElement.insert`, from `new_child.parent =
self` to the final `self.contents.insert(position, new_child)`;
`position` is the already-adjusted target.  Only reached after
`insert` has read `self.contents`, so `t` is known to be a tag. -/
def insertTailF (t nc : Nat) (position : Int) (s0 : St) : PRes :=
  let s1 := updParent s0 nc (some t)
  match tailStepA t nc position s1 with
  | (sA, some e) => (sA, some e)
  | (sA, none) =>
    let sB := tailStepB nc sA
    match descendLast sB (fuelOf sB) nc with
    | none => (sB, some .fuelError)
    | some nle =>
      match tailStepC t nc nle position sB with
      | (sC, some e) => (sC, some e)
      | (sC, none) =>
        let sD := tailStepD nle sC
        (updContents sD t (pyIns (getN sD t).contents position nc), none)

/-- The argument of the `insert`-family operations: an existing page
element (by id) or a plain Python string not yet a `NavigableString`. -/
inductive Arg where
  | node (i : Nat)
  | raw (txt : String)
deriving DecidableEq, Repr

/-- The body of `insert` after the self-check and string wrapping: read
`self.contents` (an `AttributeError` on a string), clamp the position,
apply the move-semantics decrement and extraction for an attached
child, then `insertTailF`. -/
def insertCommon (t : Nat) (pos : Int) (nc : Nat) (s0 : St) : PRes :=
  if (getN s0 t).kind ≠ .tag then (s0, some .attrError)
  else
    let cts0 := (getN s0 t).contents
    let position0 : Int := min pos (cts0.length : Int)
    match (getN s0 nc).parent with
    | some q =>
      if q = t then
        match idIdx cts0 nc with
        | some ci =>
          let p1 := if (ci : Int) < position0 then position0 - 1 else position0
          match extractF nc s0 with
          | (s1, some e) => (s1, some e)
          | (s1, none) => insertTailF t nc p1 s1
        | none => (s0, some .valueError)
      else
        match extractF nc s0 with
        | (s1, some e) => (s1, some e)
        | (s1, none) => insertTailF t nc position0 s1
    | none => insertTailF t nc position0 s0

/-- `PageElement.insert(position, new_child)`: the `new_child is self`
check, then the `NavigableString` wrapping of a plain string (a fresh
element whose `setup()` leaves every link `None`), then `insertCommon`. -/
def insertOpF (t : Nat) (pos : Int) (arg : Arg) (s0 : St) : PRes :=
  match arg with
  | .node c =>
    if c = t then (s0, some .valueError)
    else insertCommon t pos c s0
  | .raw txt =>
    insertCommon t pos s0.nodes.length ⟨s0.nodes ++ [{ kind := .nav, text := txt }]⟩

/-- `Tag.append(tag)` = `insert(len(contents), tag)` (the length is read
before the insert call). -/
def appendOpF (t : Nat) (arg : Arg) (s : St) : PRes :=
  if (getN s t).kind ≠ .tag then (s, some .attrError)
  else insertOpF t ((getN s t).contents.length : Int) arg s

/-- `PageElement.replace_with(replace_with)`: the falsy-parent check,
the silent no-op when the replacement is this very element, the
own-parent check, then capture the index, extract and insert. -/
def replaceWithOpF (n m : Nat) (s : St) : PRes :=
  let pOpt := (getN s n).parent
  if !truthyO s pOpt then (s, some .valueError)
  else if m = n then (s, none)
  else if pOpt = some m then (s, some .valueError)
  else
    match pOpt with
    | some pa =>
      if (getN s pa).kind ≠ .tag then (s, some .typeError)
      else
        match idIdx (getN s pa).contents n with
        | some i =>
          match extractF n s with
          | (s1, some e) => (s1, some e)
          | (s1, none) => insertOpF pa (i : Int) (.node m) s1
        | none => (s, some .valueError)
    | none => (s, some .valueError)

/-- The `for child in reversed(self.contents[:])` loop of `unwrap`. -/
def insertKidsF (pa : Nat) (i : Nat) : List Nat → St → PRes
  | [], s => (s, none)
  | k :: rest, s =>
    match insertOpF pa (i : Int) (.node k) s with
    | (s1, some e) => (s1, some e)
    | (s1, none) => insertKidsF pa i rest s1

/-- `PageElement.unwrap()`. -/
def unwrapOpF (x : Nat) (s : St) : PRes :=
  let pOpt := (getN s x).parent
  if !truthyO s pOpt then (s, some .valueError)
  else
    match pOpt with
    | some pa =>
      if (getN s pa).kind ≠ .tag then (s, some .typeError)
      else
        match idIdx (getN s pa).contents x with
        | some i =>
          match extractF x s with
          | (s1, some e) => (s1, some e)
          | (s1, none) => insertKidsF pa i (getN s1 x).contents.reverse s1
        | none => (s, some .valueError)
    | none => (s, some .valueError)

/-- `PageElement.wrap(wrap_inside)`: `me = self.replace_with(wrap_inside)`
(which returns `self`), then `wrap_inside.append(me)`. -/
def wrapOpF (x c : Nat) (s : St) : PRes :=
  match replaceWithOpF x c s with
  | (s1, some e) => (s1, some e)
  | (s1, none) => appendOpF c (.node x) s1

/-- `PageElement.insert_before(predecessor)`: the self-check, the
`parent is None` check, the early extraction of an attached
predecessor, then insert at this element's (re-computed) index. -/
def insertBeforeOpF (x : Nat) (arg : Arg) (s : St) : PRes :=
  let selfClash : Bool :=
    match arg with
    | .node p => p = x
    | .raw _ => false
  if selfClash then (s, some .valueError)
  else
    match (getN s x).parent with
    | none => (s, some .valueError)
    | some pa =>
      let step : PRes :=
        match arg with
        | .node p => extractF p s
        | .raw _ => (s, none)
      match step with
      | (s1, some e) => (s1, some e)
      | (s1, none) =>
        if (getN s1 pa).kind ≠ .tag then (s1, some .typeError)
        else
          match idIdx (getN s1 pa).contents x with
          | some i => insertOpF pa (i : Int) arg s1
          | none => (s1, some .valueError)

/-- `PageElement.insert_after(successor)`. -/
def insertAfterOpF (x : Nat) (arg : Arg) (s : St) : PRes :=
  let selfClash : Bool :=
    match arg with
    | .node p => p = x
    | .raw _ => false
  if selfClash then (s, some .valueError)
  else
    match (getN s x).parent with
    | none => (s, some .valueError)
    | some pa =>
      let step : PRes :=
        match arg with
        | .node p => extractF p s
        | .raw _ => (s, none)
      match step with
      | (s1, some e) => (s1, some e)
      | (s1, none) =>
        if (getN s1 pa).kind ≠ .tag then (s1, some .typeError)
        else
          match idIdx (getN s1 pa).contents x with
          | some i => insertOpF pa ((i : Int) + 1) arg s1
          | none => (s1, some .valueError)

/-- Walk a navigation link repeatedly, collecting the visited ids
(fuel-bounded; ample for every state used below). -/
def chainF (s : St) (f : Node → Option Nat) : Nat → Option Nat → List Nat
  | 0, _ => []
  | _, none => []
  | fuel+1, some i => i :: chainF s f fuel (f (getN s i))

/-- Walking `next_element` from node `r`, `r` included. -/
def docChain (s : St) (r : Nat) : List Nat :=
  chainF s Node.nextEl (fuelOf s) (some r)

/-- Walking `previous_element` from node `r`, `r` included. -/
def prevChain (s : St) (r : Nat) : List Nat :=
  chainF s Node.prevEl (fuelOf s) (some r)

/-- The pre-order listing of the tree hanging from `r` (via `contents`). -/
def preorderF (s : St) : Nat → Nat → List Nat
  | 0, _ => []
  | fuel+1, i => i :: (getN s i).contents.flatMap (preorderF s fuel)

/-- Pre-order of the whole tree rooted at `r`: the currently-attached
nodes in document order. -/
def preorder (s : St) (r : Nat) : List Nat := preorderF s (fuelOf s) r

/-- Run an operation for its final state, `none` on an exception. -/
def runF (r : PRes) : Option St :=
  match r with
  | (s, none) => some s
  | (_, some _) => none
/-! ## CSS selector evaluation (`Tag.select`)

The selector evaluator is pure (it never mutates the heap), so it is
modelled as a function `St → … → Except Err (List Nat)`.  The two regular
expressions it uses (`tag_name_re` and `attribselect_re`) and the
pseudo-class pattern are deterministic when matched against a whole
token, and are implemented by direct character scanning below. -/

/-- `\s` for the ASCII whitespace the selectors use. -/
def isWsC (c : Char) : Bool :=
  c = ' ' || c = '\t' || c = '\n' || c = '\r' || c = '\x0b' || c = '\x0c'

/-- `re.sub(',[\s]*', ',', selector)`: drop whitespace directly after a
comma.  The boolean records whether we are inside such a run. -/
def stripCommaWs : Bool → List Char → List Char
  | _, [] => []
  | skip, c :: rest =>
    if skip ∧ isWsC c then stripCommaWs true rest
    else if c = ',' then c :: stripCommaWs true rest
    else c :: stripCommaWs false rest

/-- Python `str.split()`: split on whitespace runs, dropping empties.
The accumulator holds the current token reversed. -/
def wsTokens : List Char → List Char → List String
  | acc, [] => if acc.isEmpty then [] else [String.mk acc.reverse]
  | acc, c :: rest =>
    if isWsC c then
      if acc.isEmpty then wsTokens [] rest
      else String.mk acc.reverse :: wsTokens [] rest
    else wsTokens (c :: acc) rest

/-- The token list of a selector string. -/
def tokenize (selector : String) : List String :=
  wsTokens [] (stripCommaWs false selector.data)

/-- Python `str.split(sep)` keeping empty pieces. -/
def splitKeep (sep : Char) : List Char → List Char → List String
  | acc, [] => [String.mk acc.reverse]
  | acc, c :: rest =>
    if c = sep then String.mk acc.reverse :: splitKeep sep [] rest
    else splitKeep sep (c :: acc) rest

/-- Python `str.split(sep, 1)` when `sep` occurs: the part before the
first `sep` and the rest; `none` when `sep` does not occur. -/
def splitOnce (sep : Char) : List Char → Option (List Char × List Char)
  | [] => none
  | c :: rest =>
    if c = sep then some ([], rest)
    else (splitOnce sep rest).map (fun q => (c :: q.1, q.2))

/-- Longest run of characters satisfying `p`, and the remainder. -/
def takeRun (p : Char → Bool) : List Char → List Char × List Char
  | [] => ([], [])
  | c :: rest =>
    if p c then
      let q := takeRun p rest
      (c :: q.1, q.2)
    else ([], c :: rest)

/-- `[a-zA-Z0-9]` -/
def isTagChar0 (c : Char) : Bool := c.isAlphanum

/-- `[-.a-zA-Z0-9:_]` -/
def isTagCharR (c : Char) : Bool :=
  c.isAlphanum || c = '-' || c = '.' || c = ':' || c = '_'

/-- `tag_name_re = ^[a-zA-Z0-9][-.a-zA-Z0-9:_]*$` -/
def tagNameMatch (l : List Char) : Bool :=
  match l with
  | [] => false
  | c :: rest => isTagChar0 c && rest.all isTagCharR

/-- `\w` (ASCII) -/
def isWordC (c : Char) : Bool := c.isAlphanum || c = '_'

/-- `[\w-]` -/
def isAttrNameC (c : Char) : Bool := isWordC c || c = '-'

/-- `[=~\|\^\$\*]` -/
def isOpC (c : Char) : Bool :=
  c = '=' || c = '~' || c = '|' || c = '^' || c = '$' || c = '*'

/-- `attribselect_re`: `^(tag)?\[(attr)(op?)=?"?(value)"?\]$` matched
against a whole token; returns (tag, attribute, operator, value). -/
def parseAttrib (l : List Char) : Option (String × String × Option Char × String) :=
  let q : String × List Char :=
    match l with
    | c :: _ =>
      if isTagChar0 c then
        let r := takeRun isTagCharR l
        (String.mk r.1, r.2)
      else ("", l)
    | [] => ("", l)
  match q.2 with
  | '[' :: r1 =>
    let ra := takeRun isAttrNameC r1
    if ra.1.isEmpty then none
    else
      let rb : Option Char × List Char :=
        match ra.2 with
        | c :: rest => if isOpC c then (some c, rest) else (none, ra.2)
        | [] => (none, ra.2)
      let rc := match rb.2 with
        | '=' :: rest => rest
        | _ => rb.2
      let rd := match rc with
        | '"' :: rest => rest
        | _ => rc
      let rv := takeRun (fun c => c ≠ ']' && c ≠ '"') rd
      let re := match rv.2 with
        | '"' :: rest => rest
        | _ => rv.2
      match re with
      | [']'] => some (q.1, String.mk ra.1, rb.1, String.mk rv.1)
      | _ => none
  | _ => none

/-- `re.match('([a-zA-Z\d-]+)\(([a-zA-Z\d]+)\)', pseudo)` as a prefix
match; returns (pseudo_type, pseudo_value). -/
def parsePseudo (l : List Char) : Option (String × String) :=
  let rt := takeRun (fun c => c.isAlphanum || c = '-') l
  if rt.1.isEmpty then none
  else
    match rt.2 with
    | '(' :: r2 =>
      let rv := takeRun Char.isAlphanum r2
      if rv.1.isEmpty then none
      else
        match rv.2 with
        | ')' :: _ => some (String.mk rt.1, String.mk rv.1)
        | _ => none
    | _ => none

/-- Python `int(v)` on the alphanumeric pseudo-class argument: succeeds
exactly on a non-empty digit string. -/
def digitsToNat : List Char → Nat → Nat
  | [], acc => acc
  | c :: t, acc => digitsToNat t (acc * 10 + (c.toNat - 48))

def pyIntOf (v : String) : Option Int :=
  if v.data ≠ [] ∧ v.data.all Char.isDigit then some (Int.ofNat (digitsToNat v.data 0))
  else none

/-- The checker predicates a selector token can compile to. -/
inductive Chk where
  | attrOp (op : Option Char) (attr : String) (value : String)
  | idIs (tagId : String)
  | classesSub (cls : List String)
  | nthOfType (target : Int)
deriving DecidableEq, Repr

/-- The candidate generators a combinator installs for the next token. -/
inductive GKind where
  | children
  | sibsAll
  | sibNextTag
deriving DecidableEq, Repr

/-- The classification of one (comma-free) selector token. -/
inductive TokKind where
  | plain (tagName : String) (chk : Option Chk)
  | comb (g : GKind)
deriving DecidableEq, Repr

/-- Classify one token exactly as the token dispatch in `Tag.select`
does (attribute selector, then `#`, `.`, `:`, `*`, the three
combinators, then a bare tag name, else a `ValueError`). -/
def classify (token : String) : Except Err TokKind :=
  match parseAttrib token.data with
  | some (tg, att, op, vl) => .ok (.plain tg (some (.attrOp op att vl)))
  | none =>
    match splitOnce '#' token.data with
    | some (tg, tid) => .ok (.plain (String.mk tg) (some (.idIs (String.mk tid))))
    | none =>
      match splitOnce '.' token.data with
      | some (tg, klass) =>
        .ok (.plain (String.mk tg) (some (.classesSub (splitKeep '.' [] klass))))
      | none =>
        match splitOnce ':' token.data with
        | some (tg, pseudo) =>
          if tg.isEmpty then .error .valueError
          else
            let pr := parsePseudo pseudo
            let ptype := match pr with
              | some q => q.1
              | none => String.mk pseudo
            if ptype = "nth-of-type" then
              match pr with
              | none => .error .notImplError
              | some q =>
                match pyIntOf q.2 with
                | none => .error .notImplError
                | some v =>
                  if v < 1 then .error .valueError
                  else .ok (.plain (String.mk tg) (some (.nthOfType v)))
            else .error .notImplError
        | none =>
          if token = "*" then .ok (.plain "" none)
          else if token = ">" then .ok (.comb .children)
          else if token = "~" then .ok (.comb .sibsAll)
          else if token = "+" then .ok (.comb .sibNextTag)
          else if tagNameMatch token.data then .ok (.plain token none)
          else .error .valueError

/-- `self._attr_value_as_string(attr, default)`: `none` models a missing
attribute with default `None`. -/
def attrAsString (s : St) (i : Nat) (attr : String) : Option String :=
  match (getN s i).attrs.lookup attr with
  | none => none
  | some (.str v) => some v
  | some (.lst vs) => some (" ".intercalate vs)
  | some .nil => none

/-- Membership of a one-character Python string in the character
sequence of a stored string value (iterating a `str` yields its
characters). -/
def memStrChars (v : String) (c : String) : Bool :=
  v.data.any (fun ch => String.mk [ch] = c)

/-- Evaluate an `_attribute_checker(operator, attribute, value)` result
on a candidate tag. -/
def evalAttrOp (s : St) (op : Option Char) (attr : String) (value : String)
    (cand : Nat) : Bool :=
  match op with
  | some '=' =>
    match attrAsString s cand attr with
    | some v => v = value
    | none => false
  | some '~' =>
    let vs : List String :=
      match (getN s cand).attrs.lookup attr with
      | none => []
      | some (.lst l) => l
      | some (.str v) => wsTokens [] v.data
      | some .nil => []
    vs.contains value
  | some '^' => ((attrAsString s cand attr).getD "").startsWith value
  | some '$' => ((attrAsString s cand attr).getD "").endsWith value
  | some '*' =>
    value = "" || (((attrAsString s cand attr).getD "").splitOn value).length ≠ 1
  | some '|' =>
    let v := (attrAsString s cand attr).getD ""
    v = value || v.startsWith (value ++ "-")
  | _ => ((getN s cand).attrs.lookup attr).isSome

/-- Evaluate a checker on a candidate, threading the `nth-of-type`
counter; `none` in the first component is a `StopIteration`. -/
def evalChk (s : St) (chk : Chk) (cand : Nat) (cnt : Nat) : Option Bool × Nat :=
  match chk with
  | .nthOfType tgt =>
    let c1 := cnt + 1
    if (c1 : Int) = tgt then (some true, c1)
    else if tgt < (c1 : Int) then (none, c1)
    else (some false, c1)
  | .attrOp op att v => (some (evalAttrOp s op att v cand), cnt)
  | .idIs tid =>
    let r : Bool :=
      match (getN s cand).attrs.lookup "id" with
      | some (.str v) => v = tid
      | _ => false
    (some r, cnt)
  | .classesSub cls =>
    let r : Bool :=
      match (getN s cand).attrs.lookup "class" with
      | some (.lst vs) => cls.all (fun c => vs.contains c)
      | some (.str v) => cls.all (fun c => memStrChars v c)
      | _ => cls.isEmpty
    (some r, cnt)

/-- `Tag.descendants`: the document-order walk from `contents[0]` up to
(but excluding) the stop node, the `next_element` of the subtree's last
descendant. -/
def walkUntil (s : St) : Nat → Option Nat → Option Nat → Except Err (List Nat)
  | 0, _, _ => .error .fuelError
  | fuel+1, cur, stop =>
    if cur = stop then .ok []
    else
      match cur with
      | none => .error .attrError
      | some c => do
        let r ← walkUntil s fuel (getN s c).nextEl stop
        .ok (c :: r)

/-- `Tag.descendants` materialised. -/
def descendantsL (s : St) (i : Nat) : Except Err (List Nat) :=
  if (getN s i).contents.length = 0 then .ok []
  else
    match (getN s i).nextSib with
    | some sb =>
      if truthyN s sb then
        match (getN s sb).prevEl with
        | some ld => walkUntil s (fuelOf s) ((getN s i).contents.head?) (getN s ld).nextEl
        | none => .error .attrError
      else
        match descendLast s (fuelOf s) i with
        | some ld => walkUntil s (fuelOf s) ((getN s i).contents.head?) (getN s ld).nextEl
        | none => .error .fuelError
    | none =>
      match descendLast s (fuelOf s) i with
      | some ld => walkUntil s (fuelOf s) ((getN s i).contents.head?) (getN s ld).nextEl
      | none => .error .fuelError

/-- The first `next_sibling` (following the chain) that is a tag:
`find_next_sibling(True)`. -/
def firstTagSib (s : St) : Nat → Option Nat → Option Nat
  | 0, _ => none
  | _, none => none
  | fuel+1, some j =>
    if (getN s j).kind = .tag then some j
    else firstTagSib s fuel (getN s j).nextSib

/-- The accumulator of the candidate loop: the `new_context` being
built and the shared `nth-of-type` counter. -/
structure ScanAcc where
  ctx : List Nat
  cnt : Nat
deriving DecidableEq, Repr

/-- The `for candidate in _use_candidate_generator(tag)` loop: skip
non-tags and tag-name mismatches, run the checker (a `StopIteration`
breaks the loop), de-duplicate by identity, stop the scan once a truthy
`limit` is reached. -/
def scanCands (s : St) (tagName : String) (chk : Option Chk) (limit : Nat) :
    List Nat → ScanAcc → ScanAcc
  | [], acc => acc
  | cand :: rest, acc =>
    if (getN s cand).kind ≠ .tag then scanCands s tagName chk limit rest acc
    else if tagName ≠ "" ∧ (getN s cand).name ≠ tagName then
      scanCands s tagName chk limit rest acc
    else
      match chk with
      | some ck =>
        match evalChk s ck cand acc.cnt with
        | (none, c1) => { acc with cnt := c1 }
        | (some false, c1) => scanCands s tagName chk limit rest { acc with cnt := c1 }
        | (some true, c1) =>
          if acc.ctx.contains cand then
            scanCands s tagName chk limit rest { acc with cnt := c1 }
          else
            let ctx1 := acc.ctx ++ [cand]
            if limit ≠ 0 ∧ limit ≤ ctx1.length then { ctx := ctx1, cnt := c1 }
            else scanCands s tagName chk limit rest { ctx := ctx1, cnt := c1 }
      | none =>
        if acc.ctx.contains cand then scanCands s tagName chk limit rest acc
        else
          let ctx1 := acc.ctx ++ [cand]
          if limit ≠ 0 ∧ limit ≤ ctx1.length then { ctx := ctx1, cnt := acc.cnt }
          else scanCands s tagName chk limit rest { ctx := ctx1, cnt := acc.cnt }

/-- The `for tag in current_context` loop for one token: generate each
tag's candidates and scan them. -/
def runToken (s : St) (gen : Nat → Except Err (List Nat)) (tagName : String)
    (chk : Option Chk) (limit : Nat) :
    List Nat → ScanAcc → Except Err ScanAcc
  | [], acc => .ok acc
  | tg :: rest, acc => do
    let cands ← gen tg
    runToken s gen tagName chk limit rest (scanCands s tagName chk limit cands acc)

/-- The candidate generator for a non-combinator token, picked from the
inherited `_candidate_generator` or defaulting to `descendants`. -/
def genFor (s : St) (cg : Option GKind) : Nat → Except Err (List Nat) :=
  fun tg =>
    match cg with
    | none => descendantsL s tg
    | some .children => .ok (getN s tg).contents
    | some .sibsAll => .ok (chainF s Node.nextSib (fuelOf s) (getN s tg).nextSib)
    | some .sibNextTag =>
      .ok (match firstTagSib s (fuelOf s) (getN s tg).nextSib with
           | some j => [j]
           | none => [])

/-- The `for token in grouped_tokens` loop.  `selRec` is the recursive
`select` at one less fuel, used by combinator tokens on the following
token. -/
def groupedLoop (s : St) (selRec : Nat → String → GKind → Except Err (List Nat))
    (tokens : List String) (idx : Nat) (cg : Option GKind) (limit : Nat)
    (ctx : List Nat) : List String → List Nat → Except Err (List Nat)
  | [], acc => .ok acc
  | token :: rest, acc => do
    let tk ← classify token
    match tk with
    | .plain tagName chk => do
      let r ← runToken s (genFor s cg) tagName chk limit ctx ⟨acc, 0⟩
      groupedLoop s selRec tokens idx cg limit ctx rest r.ctx
    | .comb g =>
      match tokens.get? (idx+1) with
      | none => .error .indexError
      | some nextTok => do
        let r ← runToken s (fun tg => selRec tg nextTok g) "" none limit ctx ⟨acc, 0⟩
        groupedLoop s selRec tokens idx cg limit ctx rest r.ctx

/-- The `for index, token_group in enumerate(tokens)` loop.  `rem` is the
remaining token list, `idx` the current index. -/
def groupsLoop (s : St) (selRec : Nat → String → GKind → Except Err (List Nat))
    (tokens : List String) (cg : Option GKind) (limit : Nat) :
    List String → Nat → List Nat → Except Err (List Nat)
  | [], _, ctx => .ok ctx
  | tokenGroup :: rem, idx, ctx =>
    let grouped := splitKeep ',' [] tokenGroup.data
    if grouped.contains "" then .error .valueError
    else
      let prevTok :=
        if idx = 0 then (tokens.getLast?).getD ""
        else (tokens.get? (idx-1)).getD ""
      if prevTok = ">" ∨ prevTok = "+" ∨ prevTok = "~" then
        groupsLoop s selRec tokens cg limit rem (idx+1) ctx
      else do
        let ctx1 ← groupedLoop s selRec tokens idx cg limit ctx grouped []
        groupsLoop s selRec tokens cg limit rem (idx+1) ctx1

/-- `Tag.select(selector, _candidate_generator, limit)`, with a recursion
budget (the actual recursion depth through combinators is at most one). -/
def selectFueled (s : St) : Nat → Nat → String → Option GKind → Nat →
    Except Err (List Nat)
  | 0, _, _, _, _ => .error .fuelError
  | fuel+1, root, selector, cg, limit =>
    let tokens := tokenize selector
    match tokens.getLast? with
    | none => .error .indexError
    | some lastTok =>
      if lastTok = ">" ∨ lastTok = "+" ∨ lastTok = "~" then .error .valueError
      else
        groupsLoop s (fun r sel g => selectFueled s fuel r sel (some g) 0)
          tokens cg limit tokens 0 [root]

/-- `Tag.select(selector, limit=limit)` (`limit = 0` models the falsy
default `None`). -/
def selectOp (s : St) (root : Nat) (selector : String) (limit : Nat) :
    Except Err (List Nat) :=
  selectFueled s (selector.length + 2) root selector none limit

/-! ## Serialisation (`Tag.decode`) and entity substitution

`EntitySubstitution` lives in the external `sigil_bs4.dammit` module,
outside this repository's source; the three substitution functions are
modelled from the spec below. -/

/-- `NON_BREAKING_INLINE_TAGS`. -/
def nonBreakingInline : List String :=
  ["a","abbr","acronym","b","bdo","big","br","button","cite","code","del",
   "dfn","em","font","i","image","img","input","ins","kbd","label","map",
   "mark","nobr","object","q","ruby","rt","s","samp","select","small",
   "span","strike","strong","sub","sup","textarea","tt","u","var","wbr",
   "mbp:nu"]

/-- `HTMLAwareEntitySubstitution.cdata_containing_tags`. -/
def cdataContainingTags : List String := ["script", "style"]

/-- Modelled from the spec: the "minimal" policy converts ampersands and
angle brackets to the XML entities `&amp; &lt; &gt;`
(`EntitySubstitution.substitute_xml`, external `dammit` module). -/
def subXmlChars : List Char → List Char
  | [] => []
  | '&' :: r => '&' :: 'a' :: 'm' :: 'p' :: ';' :: subXmlChars r
  | '<' :: r => '&' :: 'l' :: 't' :: ';' :: subXmlChars r
  | '>' :: r => '&' :: 'g' :: 't' :: ';' :: subXmlChars r
  | c :: r => c :: subXmlChars r

/-- Does this suffix start with an entity reference body (`\w+;`,
`#\d+;` or `#x[0-9a-fA-F]+;`)?  Used to keep non-bare ampersands. -/
def entAhead (l : List Char) : Bool :=
  match l with
  | '#' :: 'x' :: r =>
    let q := takeRun (fun c => c.isDigit || (c ≥ 'a' ∧ c ≤ 'f') || (c ≥ 'A' ∧ c ≤ 'F')) r
    !q.1.isEmpty && q.2.head? = some ';'
  | '#' :: r =>
    let q := takeRun Char.isDigit r
    !q.1.isEmpty && q.2.head? = some ';'
  | _ =>
    let q := takeRun isWordC l
    !q.1.isEmpty && q.2.head? = some ';'

/-- Modelled from the spec: "Bare ampersands and angle brackets are
converted to XML entities" — ampersands that already begin an entity
reference are left alone
(`EntitySubstitution.substitute_xml_containing_entities`, external
`dammit` module). -/
def subXmlCEChars : List Char → List Char
  | [] => []
  | '&' :: r =>
    if entAhead r then '&' :: subXmlCEChars r
    else '&' :: 'a' :: 'm' :: 'p' :: ';' :: subXmlCEChars r
  | '<' :: r => '&' :: 'l' :: 't' :: ';' :: subXmlCEChars r
  | '>' :: r => '&' :: 'g' :: 't' :: ';' :: subXmlCEChars r
  | c :: r => c :: subXmlCEChars r

/-- Modelled from the spec: the "html" policy converts every character
with a corresponding HTML entity (`EntitySubstitution.substitute_html`,
external `dammit` module); only its behaviour on `& < >` — which the
named-entity table shares with the XML policy — is relied on below. -/
def subHtmlS (v : String) : String := String.mk (subXmlChars v.data)

/-- The "minimal" XML substitution on a string. -/
def subXmlCES (v : String) : String := String.mk (subXmlCEChars v.data)

/-- The substitution functions a formatter name can resolve to. -/
inductive FmtFun where
  | idF
  | subXmlCE
  | subHtmlF
  | awareXmlF
  | awareHtmlF
deriving DecidableEq, Repr

/-- The three named formatter policies. -/
inductive Fmt where
  | fnone
  | fminimal
  | fhtml
deriving DecidableEq, Repr

/-- `PageElement._is_xml`: climb to the top-level object and read its
`is_xml` attribute (absent, hence `False`, on ordinary elements). -/
def isXmlOf (s : St) : Nat → Nat → Bool
  | 0, i => (getN s i).isXml
  | fuel+1, i =>
    match (getN s i).parent with
    | none => (getN s i).isXml
    | some p => isXmlOf s fuel p

/-- `PageElement._formatter_for_name` for the three named policies. -/
def fmtForName (s : St) (i : Nat) (f : Fmt) : FmtFun :=
  if isXmlOf s (fuelOf s) i then
    match f with
    | .fhtml => .subHtmlF
    | .fminimal => .subXmlCE
    | .fnone => .idF
  else
    match f with
    | .fhtml => .awareHtmlF
    | .fminimal => .awareXmlF
    | .fnone => .idF

/-- Apply a substitution function to a `NavigableString` node
(`_substitute_if_appropriate`: the direct children of `script`/`style`
tags are returned untouched by the HTML-aware functions). -/
def applyFmtNS (s : St) (fn : FmtFun) (c : Nat) : String :=
  let inCdata : Bool :=
    match (getN s c).parent with
    | some p => cdataContainingTags.contains (getN s p).name
    | none => false
  match fn with
  | .idF => (getN s c).text
  | .subXmlCE => subXmlCES (getN s c).text
  | .subHtmlF => subHtmlS (getN s c).text
  | .awareXmlF => if inCdata then (getN s c).text else subXmlCES (getN s c).text
  | .awareHtmlF => if inCdata then (getN s c).text else subHtmlS (getN s c).text

/-- Apply a substitution function to a plain string (attribute values;
never a `NavigableString`, so the aware functions always substitute). -/
def applyFmtStr (fn : FmtFun) (v : String) : String :=
  match fn with
  | .idF => v
  | .subXmlCE => subXmlCES v
  | .subHtmlF => subHtmlS v
  | .awareXmlF => subXmlCES v
  | .awareHtmlF => subHtmlS v

/-- `NavigableString.output_ready` (empty `PREFIX`/`SUFFIX`). -/
def outputReady (s : St) (fn : FmtFun) (c : Nat) : String := applyFmtNS s fn c

/-- Modelled from the spec:
`EntitySubstitution.quoted_attribute_value` (external `dammit` module)
wraps the already-substituted attribute value in quotes. -/
def quotedAttr (v : String) : String := "\"" ++ v ++ "\""

/-- The attribute rendering shared by the serialisers: sorted key order,
lists space-joined, `None` rendered as a bare name. -/
def decodeAttrs (s : St) (fn : FmtFun) (i : Nat) : List String :=
  ((getN s i).attrs.mergeSort (fun a b => decide (a.1 ≤ b.1))).map
    (fun kv =>
      match kv.2 with
      | .nil => kv.1
      | .str v => kv.1 ++ "=" ++ quotedAttr (applyFmtStr fn v)
      | .lst vs => kv.1 ++ "=" ++ quotedAttr (applyFmtStr fn (" ".intercalate vs)))

/-- `Tag._should_pretty_print(indent_level)`. -/
def shouldPretty (s : St) (i : Nat) (indentLevel : Option Nat) : Bool :=
  indentLevel.isSome
  && ((!decide ((getN s i).name = "pre") && !nonBreakingInline.contains (getN s i).name)
      || isXmlOf s (fuelOf s) i)

/-- Repeat the indent unit. -/
def repChars (u : String) : Nat → String
  | 0 => ""
  | n+1 => u ++ repChars u n

mutual

/-- `Tag.decode` with the formatter already resolved to a function (the
recursive calls of `decode` pass the resolved function along). -/
def decodeTag (s : St) : Nat → Nat → Option Nat → FmtFun → String → String
  | 0, _, _, _, _ => ""
  | fuel+1, i, indentLevel, fn, indentChars =>
    let nd := getN s i
    let attrs := decodeAttrs s fn i
    let isEmpty := nd.contents.isEmpty && nd.canBeEmpty
    let pfxS := match nd.pfx with
      | some p => p ++ ":"
      | none => ""
    let closeS := if isEmpty then "/" else ""
    let closeTag := if isEmpty then "" else "</" ++ pfxS ++ nd.name ++ ">"
    let prettyPrint := shouldPretty s i indentLevel
    let indentSpace := match indentLevel with
      | some lv => repChars indentChars (lv - 1)
      | none => ""
    let indentContents : Option Nat :=
      if prettyPrint then some ((indentLevel.getD 0) + 1) else none
    let cts := decodeCts s fuel i indentContents fn indentChars
    if nd.hidden then cts
    else
      let attrString := if attrs.isEmpty then "" else " " ++ " ".intercalate attrs
      (if indentLevel.isSome then indentSpace else "")
      ++ "<" ++ pfxS ++ nd.name ++ attrString ++ closeS ++ ">"
      ++ (if prettyPrint then "\n" else "")
      ++ cts
      ++ (if prettyPrint && !cts.isEmpty && cts.data.getLast? ≠ some '\n' then "\n" else "")
      ++ (if prettyPrint && !closeTag.isEmpty then indentSpace else "")
      ++ closeTag
      ++ (if indentLevel.isSome && !closeTag.isEmpty && truthyO s nd.nextSib then "\n"
          else "")

/-- The `for c in self` loop of `Tag.decode_contents`. -/
def decodeCtsLoop (s : St) (fuel : Nat) (selfName : String)
    (indentLevel : Option Nat) (fn : FmtFun) (indentChars : String) :
    List Nat → String
  | [] => ""
  | c :: rest =>
    let prettyPrint := indentLevel.isSome
    let piece :=
      match (getN s c).kind with
      | .nav =>
        let t0 := outputReady s fn c
        let t1 :=
          if !t0.isEmpty && (match indentLevel with
                             | some lv => lv ≠ 0
                             | none => false) && !decide (selfName = "pre")
          then t0.trim else t0
        if !t1.isEmpty then
          (if prettyPrint && !decide (selfName = "pre")
           then repChars indentChars ((indentLevel.getD 0) - 1) else "")
          ++ t1
          ++ (if prettyPrint && !decide (selfName = "pre") then "\n" else "")
        else ""
      | .tag => decodeTag s fuel c indentLevel fn indentChars
    piece ++ decodeCtsLoop s fuel selfName indentLevel fn indentChars rest

/-- `Tag.decode_contents` with the formatter already resolved. -/
def decodeCts (s : St) (fuel : Nat) (i : Nat) (indentLevel : Option Nat)
    (fn : FmtFun) (indentChars : String) : String :=
  decodeCtsLoop s fuel (getN s i).name indentLevel fn indentChars (getN s i).contents

end

/-- `Tag.decode(indent_level, eventual_encoding, formatter, indent_chars)`
for a named formatter policy: resolve the formatter against this
element's tree, then render. -/
def decodeOp (s : St) (i : Nat) (indentLevel : Option Nat) (f : Fmt)
    (indentChars : String) : String :=
  decodeTag s (fuelOf s) i indentLevel (fmtForName s i f) indentChars

/-! ## Frame predicates and concrete states used by the claims -/

/-- The projections the structural claims observe: `contents`, `parent`
and the element kind.  Link surgery leaves all three untouched. -/
def frameCPK (s s' : St) : Prop :=
  ∀ y, (getN s' y).contents = (getN s y).contents ∧
       (getN s' y).parent = (getN s y).parent ∧
       (getN s' y).kind = (getN s y).kind ∧
       (getN s' y).text = (getN s y).text

/-- A document of four tags `<p><b></b><i></i><b></b></p>`: node 0 is
the parent, nodes 1 and 3 are value-equal empty `<b>` tags, node 2 the
`<i>` between them.  Both orderings are correctly wired. -/
def c1s0 : St := ⟨[
  { name := "p", contents := [1, 2, 3], nextEl := some 1 },
  { name := "b", parent := some 0, nextSib := some 2, prevEl := some 0, nextEl := some 2 },
  { name := "i", parent := some 0, prevSib := some 1, nextSib := some 3, prevEl := some 1, nextEl := some 3 },
  { name := "b", parent := some 0, prevSib := some 2, prevEl := some 2 }]⟩

/-- A tag (node 0) with two string children and a detached tag (node 3). -/
def c2s0 : St := ⟨[
  { name := "t", contents := [1, 2], nextEl := some 1 },
  { kind := .nav, text := "x", parent := some 0, nextSib := some 2, prevEl := some 0, nextEl := some 2 },
  { kind := .nav, text := "y", parent := some 0, prevSib := some 1, prevEl := some 1 },
  { name := "c" }]⟩

/-- A parent (node 0) holding node 1, plus a detached childless
container (node 2). -/
def c5a : St := ⟨[
  { name := "p", contents := [1], nextEl := some 1 },
  { name := "n", parent := some 0, prevEl := some 0 },
  { name := "c" }]⟩

/-- A parent (node 0) holding node 1, plus a detached container (node 2)
that already owns a child (node 3). -/
def c5b : St := ⟨[
  { name := "p", contents := [1], nextEl := some 1 },
  { name := "n", parent := some 0, prevEl := some 0 },
  { name := "c", contents := [3], nextEl := some 3 },
  { name := "x", parent := some 2, prevEl := some 2 }]⟩

/-- `<r><a><b/><b/></a><a><b/></a></r>`: root 0, `<a>` tags 1 and 4,
`<b>` tags 2, 3 (under 1) and 5 (under 4), fully wired. -/
def s6 : St := ⟨[
  { name := "r", contents := [1, 4], nextEl := some 1 },
  { name := "a", contents := [2, 3], parent := some 0, nextSib := some 4, prevEl := some 0, nextEl := some 2 },
  { name := "b", parent := some 1, nextSib := some 3, prevEl := some 1, nextEl := some 3 },
  { name := "b", parent := some 1, prevSib := some 2, prevEl := some 2, nextEl := some 4 },
  { name := "a", contents := [5], parent := some 0, prevSib := some 1, prevEl := some 3, nextEl := some 5 },
  { name := "b", parent := some 4, prevEl := some 4 }]⟩

/-- A single tag whose `class` attribute holds the list `["a","b"]`. -/
def s9 : St := ⟨[{ name := "t", attrs := [("class", .lst ["a", "b"])] }]⟩

/-- A `<script>` tag (node 0) and a `<p>` tag (node 2), each holding one
text child with the given payload. -/
def c8st (txt : String) : St := ⟨[
  { name := "script", contents := [1], nextEl := some 1 },
  { kind := .nav, text := txt, parent := some 0, prevEl := some 0 },
  { name := "p", contents := [3], nextEl := some 3 },
  { kind := .nav, text := txt, parent := some 2, prevEl := some 2 }]⟩

/-- The heap after inserting the detached tag 3 at position 1 of node 0
in `c2s0` (used to instantiate the general insert theorem). -/
def c2w : St := (runF (insertOpF 0 1 (.node 3) c2s0)).getD ⟨[]⟩

/-- The heap after replacing node 1 by the detached node 2 in `c5a`. -/
def c3w : St := (runF (replaceWithOpF 1 2 c5a)).getD ⟨[]⟩

/-- The heap after inserting the raw string "z" at position 1 of the
tag of `c2s0`. -/
def c10w : St := (runF (insertOpF 0 1 (.raw "z") c2s0)).getD ⟨[]⟩

/-- The heap after extracting the `<i>` (node 2) of `c1s0`. -/
def c1w : St := (runF (extractF 2 c1s0)).getD ⟨[]⟩

/-- The heap after wrapping node 1 of `c5a` in the container 2. -/
def c5aw1 : St := (runF (wrapOpF 1 2 c5a)).getD ⟨[]⟩

/-- The heap after then unwrapping the container 2. -/
def c5aw2 : St := (runF (unwrapOpF 2 c5aw1)).getD ⟨[]⟩

/-- Boolean equality on selector outcomes, for concrete evaluation. -/
def exceptEqB : Except Err (List Nat) → Except Err (List Nat) → Bool
  | .ok a, .ok b => a = b
  | .error a, .error b => a = b
  | _, _ => false

instance : DecidableEq (Except Err (List Nat)) := fun a b =>
  decidable_of_iff (exceptEqB a b = true) (by
    cases a <;> cases b <;> simp [exceptEqB])

/-! ## Heap access lemmas -/

@[simp]
theorem setN_length (s : St) (i : Nat) (nd : Node) :
    (setN s i nd).nodes.length = s.nodes.length := by
  simp [setN]

theorem getN_setN (s : St) (i y : Nat) (nd : Node) :
    getN (setN s i nd) y = if i = y ∧ i < s.nodes.length then nd else getN s y := by
  rcases s with ⟨l⟩
  show (l.set i nd).getD y {} = _
  by_cases h1 : i = y
  · subst h1
    by_cases h2 : i < l.length
    · simp [List.getD, List.getElem?_set_eq_of_lt _ h2, h2, getN]
    · have hle : l.length ≤ i := by omega
      simp [getN, List.getD, List.set_eq_of_length_le hle, h2]
  · unfold getN List.getD
    rw [List.get?_eq_getElem?, List.get?_eq_getElem?, List.getElem?_set_ne h1]
    simp [h1]

@[simp]
theorem getN_updPrevEl (s : St) (i v y) :
    getN (updPrevEl s i v) y =
      if i = y ∧ i < s.nodes.length then { getN s y with prevEl := v }
      else getN s y := by
  rw [updPrevEl, getN_setN]
  split
  · rename_i h
    rw [h.1]
  · rfl

@[simp]
theorem getN_updNextEl (s : St) (i v y) :
    getN (updNextEl s i v) y =
      if i = y ∧ i < s.nodes.length then { getN s y with nextEl := v }
      else getN s y := by
  rw [updNextEl, getN_setN]
  split
  · rename_i h
    rw [h.1]
  · rfl

@[simp]
theorem getN_updPrevSib (s : St) (i v y) :
    getN (updPrevSib s i v) y =
      if i = y ∧ i < s.nodes.length then { getN s y with prevSib := v }
      else getN s y := by
  rw [updPrevSib, getN_setN]
  split
  · rename_i h
    rw [h.1]
  · rfl

@[simp]
theorem getN_updNextSib (s : St) (i v y) :
    getN (updNextSib s i v) y =
      if i = y ∧ i < s.nodes.length then { getN s y with nextSib := v }
      else getN s y := by
  rw [updNextSib, getN_setN]
  split
  · rename_i h
    rw [h.1]
  · rfl

@[simp]
theorem getN_updParent (s : St) (i v y) :
    getN (updParent s i v) y =
      if i = y ∧ i < s.nodes.length then { getN s y with parent := v }
      else getN s y := by
  rw [updParent, getN_setN]
  split
  · rename_i h
    rw [h.1]
  · rfl

@[simp]
theorem getN_updContents (s : St) (i l y) :
    getN (updContents s i l) y =
      if i = y ∧ i < s.nodes.length then { getN s y with contents := l }
      else getN s y := by
  rw [updContents, getN_setN]
  split
  · rename_i h
    rw [h.1]
  · rfl

@[simp]
theorem updPrevEl_length (s : St) (i v) :
    (updPrevEl s i v).nodes.length = s.nodes.length := by
  simp [updPrevEl]

@[simp]
theorem updNextEl_length (s : St) (i v) :
    (updNextEl s i v).nodes.length = s.nodes.length := by
  simp [updNextEl]

@[simp]
theorem updPrevSib_length (s : St) (i v) :
    (updPrevSib s i v).nodes.length = s.nodes.length := by
  simp [updPrevSib]

@[simp]
theorem updNextSib_length (s : St) (i v) :
    (updNextSib s i v).nodes.length = s.nodes.length := by
  simp [updNextSib]

@[simp]
theorem updParent_length (s : St) (i v) :
    (updParent s i v).nodes.length = s.nodes.length := by
  simp [updParent]

@[simp]
theorem updContents_length (s : St) (i l) :
    (updContents s i l).nodes.length = s.nodes.length := by
  simp [updContents]

/-! ## Frame lemmas: link surgery does not touch contents, parents, kinds -/

theorem frameCPK_refl (s : St) : frameCPK s s := fun _ => ⟨rfl, rfl, rfl, rfl⟩

theorem frameCPK_trans {s1 s2 s3 : St} (h1 : frameCPK s1 s2)
    (h2 : frameCPK s2 s3) : frameCPK s1 s3 := by
  intro y
  obtain ⟨a1, b1, c1, d1⟩ := h1 y
  obtain ⟨a2, b2, c2, d2⟩ := h2 y
  exact ⟨a2.trans a1, b2.trans b1, c2.trans c1, d2.trans d1⟩

theorem frameCPK_updPrevEl (s : St) (i v) : frameCPK s (updPrevEl s i v) := by
  intro y
  simp only [getN_updPrevEl]
  split <;> simp_all

theorem frameCPK_updNextEl (s : St) (i v) : frameCPK s (updNextEl s i v) := by
  intro y
  simp only [getN_updNextEl]
  split <;> simp_all

theorem frameCPK_updPrevSib (s : St) (i v) : frameCPK s (updPrevSib s i v) := by
  intro y
  simp only [getN_updPrevSib]
  split <;> simp_all

theorem frameCPK_updNextSib (s : St) (i v) : frameCPK s (updNextSib s i v) := by
  intro y
  simp only [getN_updNextSib]
  split <;> simp_all

theorem frameCPK_post_updPrevEl {s s' : St} (h : frameCPK s s') (i v) :
    frameCPK s (updPrevEl s' i v) :=
  frameCPK_trans h (frameCPK_updPrevEl s' i v)

theorem frameCPK_post_updNextEl {s s' : St} (h : frameCPK s s') (i v) :
    frameCPK s (updNextEl s' i v) :=
  frameCPK_trans h (frameCPK_updNextEl s' i v)

theorem frameCPK_post_updPrevSib {s s' : St} (h : frameCPK s s') (i v) :
    frameCPK s (updPrevSib s' i v) :=
  frameCPK_trans h (frameCPK_updPrevSib s' i v)

theorem frameCPK_post_updNextSib {s s' : St} (h : frameCPK s s') (i v) :
    frameCPK s (updNextSib s' i v) :=
  frameCPK_trans h (frameCPK_updNextSib s' i v)

theorem frameCPK_elHealF (x ld : Nat) (s : St) : frameCPK s (elHealF x ld s) := by
  simp only [elHealF]
  repeat' split
  all_goals
    repeat
      first
      | exact frameCPK_refl _
      | apply frameCPK_post_updPrevEl
      | apply frameCPK_post_updNextEl

theorem frameCPK_sibHealF (x : Nat) (s : St) : frameCPK s (sibHealF x s) := by
  simp only [sibHealF]
  repeat' split
  all_goals
    repeat
      first
      | exact frameCPK_refl _
      | apply frameCPK_post_updPrevSib
      | apply frameCPK_post_updNextSib

/-! ## The effect of `extract` on contents, parents and kinds -/

theorem getN_oob {s : St} {x : Nat} (h : s.nodes.length ≤ x) : getN s x = {} := by
  unfold getN List.getD
  rw [List.get?_eq_getElem?, List.getElem?_eq_none h]
  rfl

theorem valid_of_parent_some {s : St} {x : Nat} {p : Nat}
    (h : (getN s x).parent = some p) : x < s.nodes.length := by
  by_contra hx
  rw [getN_oob (by omega)] at h
  cases h

theorem valid_of_contents_ne {s : St} {p : Nat}
    (h : (getN s p).contents ≠ []) : p < s.nodes.length := by
  by_contra hx
  rw [getN_oob (by omega)] at h
  exact h rfl

@[simp]
theorem elHealF_length (x ld : Nat) (s : St) :
    (elHealF x ld s).nodes.length = s.nodes.length := by
  simp only [elHealF]
  repeat' split
  all_goals simp

@[simp]
theorem sibHealF_length (x : Nat) (s : St) :
    (sibHealF x s).nodes.length = s.nodes.length := by
  simp only [sibHealF]
  repeat' split
  all_goals simp

/-- A successful `extract` clears the node's parent link, removes the
node from its old parent's `contents` at its identity index, changes no
other `contents`, `parent` or `kind` field, and keeps the heap size. -/
theorem extractF_effect {x : Nat} {s s' : St} (h : extractF x s = (s', none)) :
    (∀ y, (getN s' y).kind = (getN s y).kind) ∧
    (∀ y, (getN s' y).text = (getN s y).text) ∧
    (getN s' x).parent = none ∧
    (∀ y, y ≠ x → (getN s' y).parent = (getN s y).parent) ∧
    ((getN s x).parent = none → ∀ y, (getN s' y).contents = (getN s y).contents) ∧
    (∀ p, (getN s x).parent = some p →
      ∃ i, idIdx (getN s p).contents x = some i ∧
        (getN s' p).contents = delAt (getN s p).contents i ∧
        ∀ y, y ≠ p → (getN s' y).contents = (getN s y).contents) ∧
    s'.nodes.length = s.nodes.length := by
  rcases hp : (getN s x).parent with _ | p
  · simp only [extractF, hp] at h
    rcases hld : lastDescInitP s x with e | ld <;> rw [hld] at h
    · simp at h
    · simp only [Prod.mk.injEq, and_true] at h
      subst h
      have hel := frameCPK_elHealF x ld s
      have hsib := frameCPK_sibHealF x (updParent (elHealF x ld s) x none)
      refine ⟨?_, ?_, ?_, ?_, ?_, ?_, ?_⟩
      · intro y
        rw [(hsib y).2.2.1, getN_updParent]
        split <;> simp [(hel y).2.2.1, (hel x).2.2.1]
      · intro y
        rw [(hsib y).2.2.2, getN_updParent]
        split <;> simp [(hel y).2.2.2, (hel x).2.2.2]
      · rw [(hsib x).2.1, getN_updParent]
        split
        · rfl
        · rw [(hel x).2.1, hp]
      · intro y hy
        rw [(hsib y).2.1, getN_updParent]
        split
        · rename_i hc
          exact absurd hc.1.symm hy
        · exact (hel y).2.1
      · intro _ y
        rw [(hsib y).1, getN_updParent]
        split <;> simp [(hel y).1, (hel x).1]
      · intro p hps
        cases hps
      · simp
  · simp only [extractF, hp] at h
    by_cases hk : (getN s p).kind = .tag
    · rw [if_neg (by simp [hk])] at h
      rcases hidx : idIdx (getN s p).contents x with _ | i <;> rw [hidx] at h <;>
        dsimp only at h
      · simp at h
      · have hpv : p < s.nodes.length := by
          apply valid_of_contents_ne
          intro hnil
          rw [hnil] at hidx
          cases hidx
        rcases hld : lastDescInitP (updContents s p (delAt (getN s p).contents i)) x
          with e | ld <;> rw [hld] at h
        · simp at h
        · simp only [Prod.mk.injEq, and_true] at h
          subst h
          set s1 := updContents s p (delAt (getN s p).contents i) with hs1
          have hel := frameCPK_elHealF x ld s1
          have hsib := frameCPK_sibHealF x (updParent (elHealF x ld s1) x none)
          have hxv : x < s.nodes.length := valid_of_parent_some hp
          refine ⟨?_, ?_, ?_, ?_, ?_, ?_, ?_⟩
          · intro y
            rw [(hsib y).2.2.1, getN_updParent]
            split <;>
              simp [(hel y).2.2.1, (hel x).2.2.1, hs1, getN_updContents] <;>
              split <;> simp
          · intro y
            rw [(hsib y).2.2.2, getN_updParent]
            split <;>
              simp [(hel y).2.2.2, (hel x).2.2.2, hs1, getN_updContents] <;>
              split <;> simp
          · rw [(hsib x).2.1, getN_updParent]
            split
            · rfl
            · rename_i hc
              exfalso
              apply hc
              constructor
              · rfl
              · simp [hs1]
                exact hxv
          · intro y hy
            rw [(hsib y).2.1, getN_updParent]
            split
            · rename_i hc
              exact absurd hc.1.symm hy
            · rw [(hel y).2.1]
              simp only [hs1, getN_updContents]
              split <;> rfl
          · intro hnone
            cases hnone
          · intro q hq
            injection hq with hq
            subst hq
            refine ⟨i, hidx, ?_, ?_⟩
            · rw [(hsib p).1, getN_updParent]
              split <;>
                simp [(hel p).1, (hel x).1, hs1, getN_updContents, hpv]
            · intro y hy
              rw [(hsib y).1, getN_updParent]
              split <;>
                · rw [(hel y).1]
                  simp only [hs1, getN_updContents]
                  rw [if_neg]
                  intro hc
                  exact hy hc.1.symm
          · simp [hs1]
    · rw [if_pos (by simp [hk])] at h
      simp at h

/-! ## The effect of the `insert` tail -/

theorem tailStepA_frame (t nc : Nat) (position : Int) (s1 : St) :
    frameCPK s1 (tailStepA t nc position s1).1 ∧
    (tailStepA t nc position s1).1.nodes.length = s1.nodes.length := by
  simp only [tailStepA]
  repeat' split
  all_goals
    refine ⟨?_, by simp⟩
  all_goals
    repeat
      first
      | exact frameCPK_refl _
      | apply frameCPK_post_updPrevEl
      | apply frameCPK_post_updNextEl
      | apply frameCPK_post_updPrevSib
      | apply frameCPK_post_updNextSib

theorem tailStepB_frame (nc : Nat) (sA : St) :
    frameCPK sA (tailStepB nc sA) ∧
    (tailStepB nc sA).nodes.length = sA.nodes.length := by
  simp only [tailStepB]
  repeat' split
  all_goals
    refine ⟨?_, by simp⟩
  all_goals
    repeat
      first
      | exact frameCPK_refl _
      | apply frameCPK_post_updNextEl

theorem tailStepC_frame (t nc nle : Nat) (position : Int) (sB : St) :
    frameCPK sB (tailStepC t nc nle position sB).1 ∧
    (tailStepC t nc nle position sB).1.nodes.length = sB.nodes.length := by
  simp only [tailStepC]
  repeat' split
  all_goals
    refine ⟨?_, by simp⟩
  all_goals
    repeat
      first
      | exact frameCPK_refl _
      | apply frameCPK_post_updPrevEl
      | apply frameCPK_post_updNextEl
      | apply frameCPK_post_updPrevSib
      | apply frameCPK_post_updNextSib

theorem tailStepD_frame (nle : Nat) (sC : St) :
    frameCPK sC (tailStepD nle sC) ∧
    (tailStepD nle sC).nodes.length = sC.nodes.length := by
  simp only [tailStepD]
  repeat' split
  all_goals
    refine ⟨?_, by simp⟩
  all_goals
    repeat
      first
      | exact frameCPK_refl _
      | apply frameCPK_post_updPrevEl

/-- Every successful run of the insert tail is: set the child's parent,
do link surgery (which moves no contents or parents), then insert the
child into the target's contents at the adjusted position. -/
theorem insertTailF_shape {t nc : Nat} {position : Int} {s s' : St}
    (h : insertTailF t nc position s = (s', none)) :
    ∃ sD, frameCPK (updParent s nc (some t)) sD ∧
      sD.nodes.length = s.nodes.length ∧
      s' = updContents sD t (pyIns (getN sD t).contents position nc) := by
  simp only [insertTailF] at h
  rcases hA : tailStepA t nc position (updParent s nc (some t)) with ⟨sA, eA⟩
  rw [hA] at h
  rcases eA with _ | e
  · dsimp only at h
    rcases hdl : descendLast (tailStepB nc sA) (fuelOf (tailStepB nc sA)) nc
      with _ | nle <;> rw [hdl] at h
    · simp at h
    · dsimp only at h
      rcases hC : tailStepC t nc nle position (tailStepB nc sA) with ⟨sC, eC⟩
      rw [hC] at h
      rcases eC with _ | e
      · simp only [Prod.mk.injEq, and_true] at h
        subst h
        have fA := tailStepA_frame t nc position (updParent s nc (some t))
        rw [hA] at fA
        have fB := tailStepB_frame nc sA
        have fC := tailStepC_frame t nc nle position (tailStepB nc sA)
        rw [hC] at fC
        have fD := tailStepD_frame nle sC
        refine ⟨tailStepD nle sC, ?_, ?_, rfl⟩
        · exact frameCPK_trans (frameCPK_trans (frameCPK_trans fA.1 fB.1) fC.1) fD.1
        · rw [fD.2, fC.2, fB.2, fA.2]
          simp
      · simp at h
  · simp at h

/-- A successful insert tail gives the child parent `t`, inserts it into
`t`'s contents at the (Python-clamped) position, and changes no other
`contents`, `parent` or `kind` field. -/
theorem insertTailF_effect {t nc : Nat} {position : Int} {s s' : St}
    (h : insertTailF t nc position s = (s', none))
    (htv : t < s.nodes.length) (hncv : nc < s.nodes.length) :
    (∀ y, (getN s' y).kind = (getN s y).kind) ∧
    (∀ y, (getN s' y).text = (getN s y).text) ∧
    (getN s' nc).parent = some t ∧
    (∀ y, y ≠ nc → (getN s' y).parent = (getN s y).parent) ∧
    (getN s' t).contents = pyIns (getN s t).contents position nc ∧
    (∀ y, y ≠ t → (getN s' y).contents = (getN s y).contents) ∧
    s'.nodes.length = s.nodes.length := by
  obtain ⟨sD, hfr, hlen, rfl⟩ := insertTailF_shape h
  have hPar : ∀ y, (getN sD y).parent =
      if nc = y then some t else (getN s y).parent := by
    intro y
    rw [(hfr y).2.1, getN_updParent]
    split
    · rename_i hc
      rw [if_pos hc.1]
    · rename_i hc
      rw [if_neg]
      intro hcy
      exact hc ⟨hcy, by omega⟩
  have hCts : ∀ y, (getN sD y).contents = (getN s y).contents := by
    intro y
    rw [(hfr y).1, getN_updParent]
    split <;> rfl
  have hKnd : ∀ y, (getN sD y).kind = (getN s y).kind := by
    intro y
    rw [(hfr y).2.2.1, getN_updParent]
    split <;> rfl
  have hTxt : ∀ y, (getN sD y).text = (getN s y).text := by
    intro y
    rw [(hfr y).2.2.2, getN_updParent]
    split <;> rfl
  refine ⟨?_, ?_, ?_, ?_, ?_, ?_, by simp [hlen]⟩
  · intro y
    rw [getN_updContents]
    split <;> simp [hKnd]
  · intro y
    rw [getN_updContents]
    split <;> simp [hTxt]
  · rw [getN_updContents]
    split <;> simp [hPar]
  · intro y hy
    rw [getN_updContents]
    split <;> · rw [hPar y, if_neg (by omega)]
  · rw [getN_updContents, if_pos ⟨rfl, by omega⟩]
    simp [hCts]
  · intro y hy
    rw [getN_updContents, if_neg (by intro hc; exact hy hc.1.symm), hCts]

/-! ## The effect of `insert` (existing-node argument) -/

/-- A successful `insert(pos, c)` of an existing node `c ≠ t` makes `c`
a child of `t`, leaves every other parent, every kind and every text
untouched, and rewrites contents according to where `c` came from:
nowhere, another parent `q`, or `t` itself (the stable-move case). -/
theorem insertOpF_node_effect {t c : Nat} {pos : Int} {s s' : St}
    (h : insertOpF t pos (.node c) s = (s', none))
    (htv : t < s.nodes.length) (hcv : c < s.nodes.length) :
    c ≠ t ∧
    (∀ y, (getN s' y).kind = (getN s y).kind) ∧
    (∀ y, (getN s' y).text = (getN s y).text) ∧
    (getN s' c).parent = some t ∧
    (∀ y, y ≠ c → (getN s' y).parent = (getN s y).parent) ∧
    s'.nodes.length = s.nodes.length ∧
    (((getN s c).parent = none →
       (getN s' t).contents =
         pyIns (getN s t).contents (min pos ((getN s t).contents.length : Int)) c ∧
       ∀ y, y ≠ t → (getN s' y).contents = (getN s y).contents) ∧
     (∀ q, (getN s c).parent = some q → q ≠ t →
       ∃ j, idIdx (getN s q).contents c = some j ∧
         (getN s' q).contents = delAt (getN s q).contents j ∧
         (getN s' t).contents =
           pyIns (getN s t).contents (min pos ((getN s t).contents.length : Int)) c ∧
         ∀ y, y ≠ t → y ≠ q → (getN s' y).contents = (getN s y).contents) ∧
     ((getN s c).parent = some t →
       ∃ ci, idIdx (getN s t).contents c = some ci ∧
         (getN s' t).contents =
           pyIns (delAt (getN s t).contents ci)
             (if (ci : Int) < min pos ((getN s t).contents.length : Int)
              then min pos ((getN s t).contents.length : Int) - 1
              else min pos ((getN s t).contents.length : Int)) c ∧
         ∀ y, y ≠ t → (getN s' y).contents = (getN s y).contents)) := by
  rcases hct : decide (c = t) with _ | _
  · have hct' : c ≠ t := of_decide_eq_false hct
    simp only [insertOpF, if_neg hct'] at h
    simp only [insertCommon] at h
    by_cases hk : (getN s t).kind = .tag
    · rw [if_neg (by simp [hk])] at h
      refine ⟨hct', ?_⟩
      rcases hcp : (getN s c).parent with _ | q
      · rw [hcp] at h
        dsimp only at h
        have heff := insertTailF_effect h htv hcv
        obtain ⟨k1, x1, p1, p2, ct1, ct2, ln1⟩ := heff
        refine ⟨k1, x1, p1, p2, ln1, ?_, ?_, ?_⟩
        · exact fun _ => ⟨ct1, ct2⟩
        · intro q hq
          cases hq
        · intro hq
          cases hq
      · rw [hcp] at h
        dsimp only at h
        by_cases hqt : q = t
        · subst hqt
          rw [if_pos rfl] at h
          rcases hidx : idIdx (getN s q).contents c with _ | ci <;> rw [hidx] at h <;>
            dsimp only at h
          · simp at h
          · rcases hex : extractF c s with ⟨s1, e1⟩
            rw [hex] at h
            rcases e1 with _ | e <;> dsimp only at h
            · obtain ⟨ek, et, epx, epo, ecn, ecs, eln⟩ := extractF_effect hex
              obtain ⟨j, hj, hdel, hoth⟩ := ecs q hcp
              rw [hidx] at hj
              injection hj with hj
              subst hj
              have htv1 : q < s1.nodes.length := by omega
              have hcv1 : c < s1.nodes.length := by omega
              have heff := insertTailF_effect h htv1 hcv1
              obtain ⟨k1, x1, p1, p2, ct1, ct2, ln1⟩ := heff
              refine ⟨?_, ?_, ?_, ?_, by omega, ?_, ?_, ?_⟩
              · intro y
                rw [k1 y, ek y]
              · intro y
                rw [x1 y, et y]
              · exact p1
              · intro y hy
                rw [p2 y hy]
                exact epo y hy
              · intro hcontra
                cases hcontra
              · intro q' hq' hq't
                injection hq' with hq'
                exact absurd hq'.symm hq't
              · intro _
                refine ⟨ci, rfl, ?_, ?_⟩
                · rw [ct1, hdel]
                · intro y hy
                  rw [ct2 y hy, hoth y hy]
            · simp at h
        · rw [if_neg hqt] at h
          rcases hex : extractF c s with ⟨s1, e1⟩
          rw [hex] at h
          rcases e1 with _ | e <;> dsimp only at h
          · obtain ⟨ek, et, epx, epo, ecn, ecs, eln⟩ := extractF_effect hex
            obtain ⟨j, hj, hdel, hoth⟩ := ecs q hcp
            have htv1 : t < s1.nodes.length := by omega
            have hcv1 : c < s1.nodes.length := by omega
            have heff := insertTailF_effect h htv1 hcv1
            obtain ⟨k1, x1, p1, p2, ct1, ct2, ln1⟩ := heff
            refine ⟨?_, ?_, ?_, ?_, by omega, ?_, ?_, ?_⟩
            · intro y
              rw [k1 y, ek y]
            · intro y
              rw [x1 y, et y]
            · exact p1
            · intro y hy
              rw [p2 y hy]
              exact epo y hy
            · intro hcontra
              cases hcontra
            · intro q' hq' _
              injection hq' with hq'
              subst hq'
              refine ⟨j, hj, ?_, ?_, ?_⟩
              · rw [ct2 q (by omega), hdel]
              · rw [ct1, hoth t (by omega)]
              · intro y hy hyq
                rw [ct2 y hy, hoth y hyq]
            · intro hcontra
              injection hcontra with hc2
              exact absurd hc2 hqt
          · simp at h
    · rw [if_pos (by simp [hk])] at h
      simp at h
  · have : c = t := of_decide_eq_true hct
    subst this
    simp [insertOpF] at h

/-! ## List lemmas for identity indexing, insertion and deletion -/

theorem idIdx_bound {l : List Nat} {x i : Nat} (h : idIdx l x = some i) :
    i < l.length := by
  induction l generalizing i with
  | nil => cases h
  | cons a t ih =>
    simp only [idIdx] at h
    split at h
    · injection h with h
      simp [← h]
    · rcases hidx : idIdx t x with _ | j <;> rw [hidx] at h
      · cases h
      · simp at h
        have := ih hidx
        simp [← h]
        omega

theorem idIdx_mem {l : List Nat} {x i : Nat} (h : idIdx l x = some i) : x ∈ l := by
  induction l generalizing i with
  | nil => cases h
  | cons a t ih =>
    simp only [idIdx] at h
    split at h
    · simp_all
    · rcases hidx : idIdx t x with _ | j <;> rw [hidx] at h
      · cases h
      · simp [ih hidx]

theorem idIdx_of_not_mem {l : List Nat} {x : Nat} (h : x ∉ l) : idIdx l x = none := by
  induction l with
  | nil => rfl
  | cons a t ih =>
    simp only [idIdx]
    rw [if_neg (by intro hax; exact h (hax ▸ List.mem_cons_self a t)),
      ih (fun hm => h (List.mem_cons_of_mem a hm))]
    rfl

theorem mem_delAt {l : List Nat} {i y : Nat} (h : y ∈ delAt l i) : y ∈ l := by
  induction l generalizing i with
  | nil => cases h
  | cons a t ih =>
    cases i with
    | zero => exact List.mem_cons_of_mem a h
    | succ j =>
      simp only [delAt] at h
      rcases List.mem_cons.mp h with rfl | hm
      · exact List.mem_cons_self _ _
      · exact List.mem_cons_of_mem a (ih hm)

theorem not_mem_delAt_of_count_one {l : List Nat} {x i : Nat}
    (hidx : idIdx l x = some i) (hcnt : List.count x l = 1) : x ∉ delAt l i := by
  induction l generalizing i with
  | nil => cases hidx
  | cons a t ih =>
    simp only [idIdx] at hidx
    split at hidx
    · rename_i hax
      subst hax
      injection hidx with hidx
      subst hidx
      simp only [delAt]
      rw [List.count_cons_self] at hcnt
      intro hm
      have : 1 ≤ List.count a t := List.one_le_count_iff.mpr hm
      omega
    · rename_i hax
      rcases hj : idIdx t x with _ | j <;> rw [hj] at hidx
      · cases hidx
      · simp at hidx
        subst hidx
        simp only [delAt]
        rw [List.count_cons_of_ne (by intro hxa; exact hax hxa.symm)] at hcnt
        intro hm
        rcases List.mem_cons.mp hm with rfl | hm2
        · exact hax rfl
        · exact ih hj hcnt hm2

@[simp]
theorem insAt_length (l : List Nat) (k a : Nat) :
    (insAt l k a).length = l.length + 1 := by
  induction l generalizing k with
  | nil => cases k <;> rfl
  | cons b t ih =>
    cases k with
    | zero => rfl
    | succ j => simp [insAt, ih]

theorem delAt_length {l : List Nat} {i : Nat} (h : i < l.length) :
    (delAt l i).length = l.length - 1 := by
  induction l generalizing i with
  | nil => cases h
  | cons b t ih =>
    cases i with
    | zero => rfl
    | succ j =>
      simp only [delAt, List.length_cons]
      rw [ih (by simpa using h)]
      simp at h
      omega

theorem idIdx_insAt {l : List Nat} {x k : Nat} (hx : x ∉ l) (hk : k ≤ l.length) :
    idIdx (insAt l k x) x = some k := by
  induction l generalizing k with
  | nil =>
    have hk0 : k = 0 := by simpa using hk
    subst hk0
    simp [insAt, idIdx]
  | cons a t ih =>
    cases k with
    | zero => simp [insAt, idIdx]
    | succ j =>
      have hax : a ≠ x := by
        intro hax
        exact hx (hax ▸ List.mem_cons_self a t)
      simp only [insAt, idIdx, if_neg hax]
      rw [ih (fun hm => hx (List.mem_cons_of_mem a hm)) (by simpa using hk)]
      rfl

theorem delAt_insAt {l : List Nat} {k x : Nat} (hk : k ≤ l.length) :
    delAt (insAt l k x) k = l := by
  induction l generalizing k with
  | nil =>
    have hk0 : k = 0 := by simpa using hk
    subst hk0
    rfl
  | cons a t ih =>
    cases k with
    | zero => rfl
    | succ j => simp [insAt, delAt, ih (by simpa using hk)]

theorem insAt_delAt {l : List Nat} {x i : Nat} (h : idIdx l x = some i) :
    insAt (delAt l i) i x = l := by
  induction l generalizing i with
  | nil => cases h
  | cons a t ih =>
    simp only [idIdx] at h
    split at h
    · rename_i hax
      injection h with h
      subst h
      simp [delAt, insAt, hax]
    · rcases hj : idIdx t x with _ | j <;> rw [hj] at h
      · cases h
      · simp at h
        subst h
        simp [delAt, insAt, ih hj]

theorem pyIns_eq_insAt {l : List Nat} {p : Int} {a : Nat}
    (h0 : 0 ≤ p) (hle : p ≤ (l.length : Int)) :
    pyIns l p a = insAt l p.toNat a := by
  unfold pyIns pyInsIdx
  rw [if_neg (by omega)]
  congr 1
  exact Nat.min_eq_left (by omega)

theorem toNat_min_cast (p : Int) (n : Nat) (hp : 0 ≤ p) :
    min p (n : Int) = ((min p.toNat n : Nat) : Int) := by
  rcases le_total p (n : Int) with h | h
  · rw [min_eq_left h, Nat.min_eq_left (by omega)]
    omega
  · rw [min_eq_right h, Nat.min_eq_right (by omega)]

/-! ## Claim C2 -/

/-- Claim C2, counterexample to the original statement: on a tag with
two children, `insert(-1, c)` succeeds and stores `c` at index 1, not at
`min(-1, 2) = -1` — negative positions follow Python's negative-index
insertion semantics instead. -/
theorem claimC2_counterexample :
    (runF (insertOpF 0 (-1) (.node 3) c2s0)).map
        (fun s' => idIdx (getN s' 0).contents 3) = some (some 1) ∧
    min (-1 : Int) ((getN c2s0 0).contents.length : Int) = -1 ∧
    ((1 : Nat) : Int) ≠ -1 := by
  refine ⟨by decide, by decide, by decide⟩

/-- Claim C2 (amended to non-negative positions): `insert(p, c)` raises
an invalid-operation error when `c` is the tag itself, leaving the heap
untouched; and for `0 ≤ p`, on a well-formed heap a successful insert
stores `c` in `t.contents` at index `min(p, len(contents))`, decremented
by one when `c` was already a child of `t` at an index strictly below
`p` (stable-move semantics).  Negative positions follow Python
`list.insert` semantics instead. -/
theorem claimC2 :
    (∀ (s : St) (t : Nat) (p : Int),
      insertOpF t p (.node t) s = (s, some .valueError)) ∧
    (∀ (s s' : St) (t c : Nat) (p : Int),
      0 ≤ p →
      t < s.nodes.length → c < s.nodes.length →
      insertOpF t p (.node c) s = (s', none) →
      (match (getN s c).parent with
       | none => c ∉ (getN s t).contents
       | some q => (q = t → List.count c (getN s t).contents = 1) ∧
                   (q ≠ t → c ∉ (getN s t).contents)) →
      idIdx (getN s' t).contents c =
        some (match (getN s c).parent, idIdx (getN s t).contents c with
              | some q, some ci =>
                if q = t ∧ (ci : Int) < p
                then min p.toNat (getN s t).contents.length - 1
                else min p.toNat (getN s t).contents.length
              | _, _ => min p.toNat (getN s t).contents.length)) := by
  constructor
  · intro s t p
    simp [insertOpF]
  · intro s s' t c p hp htv hcv h hcons
    obtain ⟨hct, hk, htx, hpc, hpo, hln, hA, hB, hC⟩ :=
      insertOpF_node_effect h htv hcv
    rcases hpq : (getN s c).parent with _ | q
    · rw [hpq] at hcons
      have hnm : c ∉ (getN s t).contents := hcons
      obtain ⟨hc1, _⟩ := hA hpq
      rw [idIdx_of_not_mem hnm]
      show idIdx (getN s' t).contents c =
        some (min p.toNat (getN s t).contents.length)
      rw [hc1, toNat_min_cast p _ hp,
        pyIns_eq_insAt (by omega) (by push_cast; omega)]
      rw [Int.toNat_ofNat]
      exact idIdx_insAt hnm (Nat.min_le_right _ _)
    · rw [hpq] at hcons
      have hcons' : (q = t → List.count c (getN s t).contents = 1) ∧
          (q ≠ t → c ∉ (getN s t).contents) := hcons
      by_cases hqt : q = t
      · obtain ⟨ci, hci, hc1, _⟩ := hC (by rw [hpq, hqt])
        have hcnt := hcons'.1 hqt
        have hcb : ci < (getN s t).contents.length := idIdx_bound hci
        have hnotin : c ∉ delAt (getN s t).contents ci :=
          not_mem_delAt_of_count_one hci hcnt
        rw [hci]
        show idIdx (getN s' t).contents c =
          some (if q = t ∧ (ci : Int) < p
                then min p.toNat (getN s t).contents.length - 1
                else min p.toNat (getN s t).contents.length)
        set L := (getN s t).contents.length with hL
        have hmin : min p (L : Int) = ((min p.toNat L : Nat) : Int) :=
          toNat_min_cast p L hp
        set m := min p.toNat L with hm
        have hmle : m ≤ L := Nat.min_le_right _ _
        have hiff : ((ci : Int) < min p (L : Int)) ↔ ((ci : Int) < p) := by
          rw [hmin]
          constructor
          · intro hlt
            have h1 : ci < m := by exact_mod_cast hlt
            have h2 : ci < p.toNat := lt_of_lt_of_le h1 (Nat.min_le_left _ _)
            omega
          · intro hlt
            have hcp : ci < p.toNat := by omega
            have h1 : ci < m := by omega
            exact_mod_cast h1
        have hdlen : (delAt (getN s t).contents ci).length = L - 1 := by
          rw [delAt_length hcb]
        by_cases hlt : (ci : Int) < p
        · have hltm : (ci : Int) < min p (L : Int) := hiff.mpr hlt
          rw [if_pos ⟨hqt, hlt⟩]
          rw [hc1, if_pos hltm, hmin]
          have hcm : ci < m := by
            have := hmin ▸ hltm
            exact_mod_cast this
          have hm1 : (((m : Nat) : Int) - 1) = ((m - 1 : Nat) : Int) := by omega
          rw [hm1, pyIns_eq_insAt (by omega) (by rw [hdlen]; omega)]
          rw [Int.toNat_ofNat]
          exact idIdx_insAt hnotin (by omega)
        · have hltm : ¬ ((ci : Int) < min p (L : Int)) := fun hcon => hlt (hiff.mp hcon)
          rw [if_neg (by intro hcon; exact hlt hcon.2)]
          rw [hc1, if_neg hltm, hmin]
          have hmle1 : m ≤ L - 1 := by
            have hple : p.toNat ≤ ci := by omega
            have h1 : m ≤ ci := le_trans (Nat.min_le_left _ _) hple
            omega
          rw [pyIns_eq_insAt (by omega) (by rw [hdlen]; omega)]
          rw [Int.toNat_ofNat]
          exact idIdx_insAt hnotin (by omega)
      · obtain ⟨j, hj, hdel, hc1, _⟩ := hB q hpq hqt
        have hnm : c ∉ (getN s t).contents := hcons'.2 hqt
        rw [idIdx_of_not_mem hnm]
        show idIdx (getN s' t).contents c =
          some (min p.toNat (getN s t).contents.length)
        rw [hc1, toNat_min_cast p _ hp,
          pyIns_eq_insAt (by omega) (by push_cast; omega)]
        rw [Int.toNat_ofNat]
        exact idIdx_insAt hnm (Nat.min_le_right _ _)

/-- Claim C2 witness: inserting the detached tag 3 at position 1 of
node 0 in `c2s0` succeeds and places it at index `min(1, 2) = 1`. -/
theorem claimC2_witness :
    insertOpF 0 1 (.node 3) c2s0 = (c2w, none) ∧
    idIdx (getN c2w 0).contents 3 = some 1 := by
  constructor
  · decide
  · have h := claimC2.2 c2s0 c2w 0 3 1 (by decide) (by decide) (by decide)
      (by decide) (show (3 : Nat) ∉ (getN c2s0 0).contents by decide)
    exact h.trans (by decide)

/-! ## Claim C4 -/

/-- Claim C4: each structural-invariant violation is rejected with an
invalid-operation error before any link is mutated — on every listed
error path the returned heap is exactly the input heap: inserting a node
into itself; `replace_with` on a parentless node or with the node's own
parent; `unwrap`, `insert_before` and `insert_after` on a parentless
node; `insert_before`/`insert_after` of a node relative to itself. -/
theorem claimC4 :
    (∀ (s : St) (t : Nat) (p : Int),
      insertOpF t p (.node t) s = (s, some .valueError)) ∧
    (∀ (s : St) (n m : Nat), (getN s n).parent = none →
      replaceWithOpF n m s = (s, some .valueError)) ∧
    (∀ (s : St) (n m : Nat), m ≠ n → (getN s n).parent = some m →
      replaceWithOpF n m s = (s, some .valueError)) ∧
    (∀ (s : St) (x : Nat), (getN s x).parent = none →
      unwrapOpF x s = (s, some .valueError)) ∧
    (∀ (s : St) (x : Nat) (arg : Arg), (getN s x).parent = none →
      insertBeforeOpF x arg s = (s, some .valueError)) ∧
    (∀ (s : St) (x : Nat), insertBeforeOpF x (.node x) s = (s, some .valueError)) ∧
    (∀ (s : St) (x : Nat) (arg : Arg), (getN s x).parent = none →
      insertAfterOpF x arg s = (s, some .valueError)) ∧
    (∀ (s : St) (x : Nat), insertAfterOpF x (.node x) s = (s, some .valueError)) := by
  refine ⟨?_, ?_, ?_, ?_, ?_, ?_, ?_, ?_⟩
  · intro s t p
    simp [insertOpF]
  · intro s n m h
    simp [replaceWithOpF, h, truthyO]
  · intro s n m hmn h
    rcases hb : truthyN s m with _ | _
    · simp [replaceWithOpF, h, truthyO, hb]
    · simp [replaceWithOpF, h, truthyO, hb, hmn]
  · intro s x h
    simp [unwrapOpF, h, truthyO]
  · intro s x arg h
    cases arg with
    | node p =>
      by_cases hpx : p = x <;> simp [insertBeforeOpF, h, hpx]
    | raw txt => simp [insertBeforeOpF, h]
  · intro s x
    simp [insertBeforeOpF]
  · intro s x arg h
    cases arg with
    | node p =>
      by_cases hpx : p = x <;> simp [insertAfterOpF, h, hpx]
    | raw txt => simp [insertAfterOpF, h]
  · intro s x
    simp [insertAfterOpF]

/-- Claim C4 witness: every listed violation on the concrete heap `c5a`
(node 1 under parent 0, node 2 detached) returns the untouched heap. -/
theorem claimC4_witness :
    insertOpF 0 0 (.node 0) c5a = (c5a, some .valueError) ∧
    replaceWithOpF 2 1 c5a = (c5a, some .valueError) ∧
    replaceWithOpF 1 0 c5a = (c5a, some .valueError) ∧
    unwrapOpF 2 c5a = (c5a, some .valueError) ∧
    insertBeforeOpF 2 (.node 1) c5a = (c5a, some .valueError) ∧
    insertBeforeOpF 1 (.node 1) c5a = (c5a, some .valueError) ∧
    insertAfterOpF 2 (.node 1) c5a = (c5a, some .valueError) ∧
    insertAfterOpF 1 (.node 1) c5a = (c5a, some .valueError) :=
  ⟨claimC4.1 c5a 0 0,
   claimC4.2.1 c5a 2 1 (by decide),
   claimC4.2.2.1 c5a 1 0 (by decide) (by decide),
   claimC4.2.2.2.1 c5a 2 (by decide),
   claimC4.2.2.2.2.1 c5a 2 (.node 1) (by decide),
   claimC4.2.2.2.2.2.1 c5a 1,
   claimC4.2.2.2.2.2.2.1 c5a 2 (.node 1) (by decide),
   claimC4.2.2.2.2.2.2.2 c5a 1⟩

/-! ## Claim C3 -/

/-- Claim C3, counterexample to the original statement: `replace_with`
of a node with itself does not raise — on the concrete heap `c5a`
(node 1 attached under node 0) it returns the unchanged heap with no
error, while the claim lists `m is n itself` among the error cases. -/
theorem claimC3_counterexample :
    (getN c5a 1).parent = some 0 ∧
    replaceWithOpF 1 1 c5a = (c5a, none) := by
  refine ⟨by decide, by decide⟩

/-- Claim C3 (amended): `replace_with` fails with an invalid-operation
error in exactly two cases — no parent, or the replacement is the
node's own parent; replacing a node with itself is a silent no-op that
leaves the heap unchanged; in all other cases it captures the node's
identity index in its parent, extracts the node, and calls `insert` at
the captured index, which (for a detached replacement) stores the
replacement at that index. -/
theorem claimC3 :
    (∀ (s : St) (n m : Nat), (getN s n).parent = none →
      replaceWithOpF n m s = (s, some .valueError)) ∧
    (∀ (s : St) (n pa : Nat), (getN s n).parent = some pa → truthyN s pa →
      replaceWithOpF n n s = (s, none)) ∧
    (∀ (s : St) (n m : Nat), m ≠ n → (getN s n).parent = some m →
      replaceWithOpF n m s = (s, some .valueError)) ∧
    (∀ (s : St) (n m pa : Nat) (i : Nat),
      (getN s n).parent = some pa → truthyN s pa → m ≠ n → m ≠ pa →
      (getN s pa).kind = .tag →
      idIdx (getN s pa).contents n = some i →
      replaceWithOpF n m s =
        (match extractF n s with
         | (s1, some e) => (s1, some e)
         | (s1, none) => insertOpF pa (i : Int) (.node m) s1)) ∧
    (∀ (s s' : St) (n m pa : Nat) (i : Nat),
      (getN s n).parent = some pa → m ≠ n →
      n < s.nodes.length → m < s.nodes.length → pa < s.nodes.length →
      idIdx (getN s pa).contents n = some i →
      (getN s m).parent = none → m ∉ (getN s pa).contents →
      replaceWithOpF n m s = (s', none) →
      idIdx (getN s' pa).contents m = some i) := by
  refine ⟨?_, ?_, ?_, ?_, ?_⟩
  · intro s n m h
    simp [replaceWithOpF, h, truthyO]
  · intro s n pa h ht
    simp [replaceWithOpF, h, truthyO, ht]
  · intro s n m hmn h
    rcases hb : truthyN s m with _ | _
    · simp [replaceWithOpF, h, truthyO, hb]
    · simp [replaceWithOpF, h, truthyO, hb, hmn]
  · intro s n m pa i hpar ht hmn hmp hk hi
    simp only [replaceWithOpF, hpar]
    rw [if_neg (by simp [truthyO, ht])]
    rw [if_neg hmn]
    rw [if_neg (by intro hc; injection hc with hc; exact hmp hc.symm)]
    rw [if_neg (by simp [hk]), hi]
  · intro s s' n m pa i hpar hmn hnv hmv hpav hi hmpar hmnotin h
    simp only [replaceWithOpF, hpar] at h
    by_cases ht : truthyN s pa
    · rw [if_neg (by simp [truthyO, ht])] at h
      rw [if_neg hmn] at h
      by_cases hmp : m = pa
      · rw [if_pos (by rw [hmp])] at h
        simp at h
      · rw [if_neg (by intro hc; injection hc with hc; exact hmp hc.symm)] at h
        by_cases hk : (getN s pa).kind = .tag
        · rw [if_neg (by simp [hk]), hi] at h
          dsimp only at h
          rcases hex : extractF n s with ⟨s1, e1⟩
          rw [hex] at h
          rcases e1 with _ | e <;> dsimp only at h
          · obtain ⟨ek, et, epx, epo, ecn, ecs, eln⟩ := extractF_effect hex
            obtain ⟨j, hj, hdel, hoth⟩ := ecs pa hpar
            rw [hi] at hj
            injection hj with hj
            subst hj
            have hmv1 : m < s1.nodes.length := by omega
            have hpav1 : pa < s1.nodes.length := by omega
            obtain ⟨_, _, _, _, _, _, hA, _, _⟩ :=
              insertOpF_node_effect h hpav1 hmv1
            have hmpar1 : (getN s1 m).parent = none := by
              rw [epo m hmn, hmpar]
            obtain ⟨hc1, _⟩ := hA hmpar1
            have hib : i < (getN s pa).contents.length := idIdx_bound hi
            have hd1 : (getN s1 pa).contents = delAt (getN s pa).contents i := hdel
            have hdlen : (getN s1 pa).contents.length =
                (getN s pa).contents.length - 1 := by
              rw [hd1, delAt_length hib]
            have hmnot1 : m ∉ (getN s1 pa).contents := by
              rw [hd1]
              intro hc
              exact hmnotin (mem_delAt hc)
            rw [hc1]
            have hile : (i : Int) ≤ ((getN s1 pa).contents.length : Int) := by
              rw [hdlen]
              omega
            rw [min_eq_left hile]
            rw [pyIns_eq_insAt (by omega) hile, Int.toNat_ofNat]
            exact idIdx_insAt hmnot1 (by omega)
          · simp at h
        · rw [if_pos (by simp [hk])] at h
          simp at h
    · rw [if_pos (by simp [truthyO, ht])] at h
      simp at h

/-- Claim C3 witness: on `c5a`, replacing node 1 (index 0 under node 0)
by the detached node 2 succeeds and stores node 2 at index 0; replacing
node 1 by itself is a no-op; replacing the parentless node 2 errors. -/
theorem claimC3_witness :
    replaceWithOpF 1 2 c5a = (c3w, none) ∧
    idIdx (getN c3w 0).contents 2 = some 0 ∧
    replaceWithOpF 1 1 c5a = (c5a, none) ∧
    replaceWithOpF 2 1 c5a = (c5a, some .valueError) := by
  refine ⟨by decide, ?_, claimC3.2.1 c5a 1 0 (by decide) (by decide),
    claimC3.1 c5a 2 1 (by decide)⟩
  exact claimC3.2.2.2.2 c5a c3w 1 2 0 0 (by decide) (by decide) (by decide)
    (by decide) (by decide) (by decide) (by decide) (by decide) (by decide)

/-! ## Claim C1 -/

set_option maxRecDepth 4000 in
/-- Claim C1: the document-order invariant is NOT preserved by `extract`.
On `c1s0` (`<p><b/><i/><b/></p>`, both chains correctly wired) extracting
the `<i>` (node 2) succeeds, but because `extract` compares
`self.previous_element != next_element` with *value* equality and the two
empty `<b>` tags compare equal, the healing step is skipped: the
`next_element` walk from the root still visits the extracted node 2
instead of the remaining pre-order `[0, 1, 3]`, and the
`previous_element` walk from the last node is not its reverse. -/
theorem claimC1 :
    docChain c1s0 0 = preorder c1s0 0 ∧
    prevChain c1s0 3 = (docChain c1s0 0).reverse ∧
    extractF 2 c1s0 = (c1w, none) ∧
    docChain c1w 0 ≠ preorder c1w 0 ∧
    docChain c1w 0 = [0, 1, 2] ∧ preorder c1w 0 = [0, 1, 3] ∧
    prevChain c1w 3 ≠ (docChain c1w 0).reverse := by decide

/-! ## Allocation lemmas -/

theorem getN_alloc_lt {s : St} {nd : Node} {y : Nat} (h : y < s.nodes.length) :
    getN ⟨s.nodes ++ [nd]⟩ y = getN s y := by
  simp only [getN, List.getD, List.get?_eq_getElem?]
  rw [List.getElem?_append_left h]

theorem getN_alloc_last {s : St} {nd : Node} :
    getN ⟨s.nodes ++ [nd]⟩ s.nodes.length = nd := by
  simp only [getN, List.getD, List.get?_eq_getElem?]
  rw [List.getElem?_concat_length]
  rfl

theorem mem_insAt : ∀ (l : List Nat) (k a : Nat), a ∈ insAt l k a := by
  intro l
  induction l with
  | nil => intro k a; cases k <;> simp [insAt]
  | cons b t ih =>
    intro k a
    cases k with
    | zero => simp [insAt]
    | succ k => simpa [insAt] using Or.inr (ih k a)

theorem mem_pyIns (l : List Nat) (p : Int) (a : Nat) : a ∈ pyIns l p a :=
  mem_insAt l _ a

/-! ## Claim C5 -/

/-- Claim C5, counterexample to the original statement: on `c5b` the
container (node 2) already owns a child (node 3); wrapping node 1 (at
index 0 under node 0) and unwrapping the container succeeds but leaves
node 1 at index 1, not at its original index 0 — the container's prior
children are spliced in before it. -/
theorem claimC5_counterexample :
    ((runF (wrapOpF 1 2 c5b)).bind (fun s1 => runF (unwrapOpF 2 s1))).map
      (fun s2 => ((getN s2 1).parent, idIdx (getN s2 0).contents 1)) =
      some (some 0, some 1) ∧
    idIdx (getN c5b 0).contents 1 = some 0 ∧ (1 : Nat) ≠ 0 := by
  refine ⟨by decide, by decide, by decide⟩

/-- Claim C5 (amended to a *childless* container): for every attached
node `n` (index `i` under parent `pa`) and every detached childless
container `c` distinct from `n` and `pa`, a successful
`n.wrap(c)` followed by `c.unwrap()` restores `n` as a child of `pa` —
indeed it restores `pa`'s entire contents list, so `n` is back at its
original index `i`.  A container that already owns children splices
them in before `n`, shifting it. -/
theorem claimC5 :
    ∀ (s s1 s2 : St) (n pa c i : Nat),
      (getN s n).parent = some pa →
      (getN s pa).kind = .tag →
      (getN s c).kind = .tag →
      idIdx (getN s pa).contents n = some i →
      List.count n (getN s pa).contents = 1 →
      (getN s c).parent = none →
      (getN s c).contents = [] →
      c ∉ (getN s pa).contents →
      c ≠ n → c ≠ pa → n ≠ pa →
      n < s.nodes.length → pa < s.nodes.length → c < s.nodes.length →
      wrapOpF n c s = (s1, none) →
      unwrapOpF c s1 = (s2, none) →
      (getN s2 n).parent = some pa ∧
      (getN s2 pa).contents = (getN s pa).contents := by
  intro s s1 s2 n pa c i hnp hkpa hkc hi hcnt hcp hcc hcnotin hcn hcpa hnpa
    hnv hpav hcv hw hu
  set L := (getN s pa).contents with hL
  have hib : i < L.length := idIdx_bound hi
  -- Step 1: decompose wrap into replace_with and append.
  simp only [wrapOpF] at hw
  rcases hrw : replaceWithOpF n c s with ⟨sa, ea⟩
  rw [hrw] at hw
  rcases ea with _ | e <;> dsimp only at hw
  case some => simp at hw
  -- Step 2: decompose replace_with into extract and insert.
  simp only [replaceWithOpF, hnp] at hrw
  rw [if_neg (by simp [truthyO, truthyN, hkpa])] at hrw
  rw [if_neg hcn] at hrw
  rw [if_neg (by intro hc2; injection hc2 with hc2; exact hcpa hc2.symm)] at hrw
  rw [if_neg (by simp [hkpa]), ← hL, hi] at hrw
  dsimp only at hrw
  rcases hex : extractF n s with ⟨sb, eb⟩
  rw [hex] at hrw
  rcases eb with _ | e <;> dsimp only at hrw
  case some => simp at hrw
  obtain ⟨bk, bt, bpx, bpo, _, bcs, bln⟩ := extractF_effect hex
  obtain ⟨j, hj, hdel, hoth⟩ := bcs pa hnp
  rw [← hL] at hj hdel
  rw [hi] at hj
  injection hj with hj
  subst hj
  -- Facts about sb.
  have sb_cts_pa : (getN sb pa).contents = delAt L i := hdel
  have sb_cts_c : (getN sb c).contents = [] := by rw [hoth c hcpa, hcc]
  have sb_par_c : (getN sb c).parent = none := by rw [bpo c hcn, hcp]
  have sb_kpa : (getN sb pa).kind = .tag := by rw [bk pa, hkpa]
  have sb_kc : (getN sb c).kind = .tag := by rw [bk c, hkc]
  -- Step 3: the insert of the container at index i.
  obtain ⟨_, ak, _, apc, apo, aln, aA, _, _⟩ :=
    insertOpF_node_effect hrw (by omega) (by omega)
  obtain ⟨ac1, ac2⟩ := aA sb_par_c
  have sa_cts_pa : (getN sa pa).contents = insAt (delAt L i) i c := by
    rw [ac1, sb_cts_pa]
    have hlen : (delAt L i).length = L.length - 1 := delAt_length hib
    have hile : (i : Int) ≤ ((delAt L i).length : Int) := by rw [hlen]; omega
    rw [min_eq_left hile, pyIns_eq_insAt (by omega) hile, Int.toNat_ofNat]
  have sa_cts_c : (getN sa c).contents = [] := by rw [ac2 c hcpa, sb_cts_c]
  have sa_par_c : (getN sa c).parent = some pa := apc
  have sa_par_n : (getN sa n).parent = none := by rw [apo n (fun hc2 => hcn hc2.symm), bpx]
  have sa_kpa : (getN sa pa).kind = .tag := by rw [ak pa, sb_kpa]
  have sa_kc : (getN sa c).kind = .tag := by rw [ak c, sb_kc]
  -- Step 4: the append of n into the container.
  simp only [appendOpF] at hw
  rw [if_neg (by simp [sa_kc])] at hw
  obtain ⟨hne2, wk, _, wpc, wpo, wln, wA, _, _⟩ :=
    insertOpF_node_effect hw (by omega) (by omega)
  obtain ⟨wc1, wc2⟩ := wA sa_par_n
  have insAt_nil : ∀ (k a : Nat), insAt [] k a = [a] := by
    intro k a; cases k <;> rfl
  have s1_cts_c : (getN s1 c).contents = [n] := by
    rw [wc1, sa_cts_c]
    simp only [pyIns]
    exact insAt_nil _ _
  have s1_cts_pa : (getN s1 pa).contents = insAt (delAt L i) i c := by
    rw [wc2 pa (fun hc2 => hcpa hc2.symm), sa_cts_pa]
  have s1_par_n : (getN s1 n).parent = some c := wpc
  have s1_par_c : (getN s1 c).parent = some pa := by
    rw [wpo c hcn, sa_par_c]
  have s1_kpa : (getN s1 pa).kind = .tag := by rw [wk pa, sa_kpa]
  have s1_kc : (getN s1 c).kind = .tag := by rw [wk c, sa_kc]
  have s1_ln : s1.nodes.length = s.nodes.length := by omega
  -- Step 5: decompose the unwrap of the container.
  have hnotin_del : c ∉ delAt L i := fun hc2 => hcnotin (mem_delAt hc2)
  have hdlen : (delAt L i).length = L.length - 1 := delAt_length hib
  have s1_idx_c : idIdx (getN s1 pa).contents c = some i := by
    rw [s1_cts_pa]
    exact idIdx_insAt hnotin_del (by omega)
  simp only [unwrapOpF, s1_par_c] at hu
  rw [if_neg (by simp [truthyO, truthyN, s1_kpa])] at hu
  rw [if_neg (by simp [s1_kpa]), s1_idx_c] at hu
  dsimp only at hu
  rcases hex2 : extractF c s1 with ⟨sc, ec⟩
  rw [hex2] at hu
  rcases ec with _ | e <;> dsimp only at hu
  case some => simp at hu
  obtain ⟨ck, ct, cpx, cpo, _, ccs, cln⟩ := extractF_effect hex2
  obtain ⟨j2, hj2, hdel2, hoth2⟩ := ccs pa s1_par_c
  rw [s1_idx_c] at hj2
  injection hj2 with hj2
  subst hj2
  have sc_cts_pa : (getN sc pa).contents = delAt L i := by
    rw [hdel2, s1_cts_pa, delAt_insAt (by omega)]
  have sc_cts_c : (getN sc c).contents = [n] := by
    rw [hoth2 c hcpa, s1_cts_c]
  have sc_par_n : (getN sc n).parent = some c := by
    rw [cpo n (fun hc2 => hcn hc2.symm), s1_par_n]
  have sc_kpa : (getN sc pa).kind = .tag := by rw [ck pa, s1_kpa]
  -- Step 6: the re-insert of n at index i.
  rw [sc_cts_c] at hu
  simp only [List.reverse_singleton, insertKidsF] at hu
  rcases hins : insertOpF pa (i : Int) (.node n) sc with ⟨s3, e3⟩
  rw [hins] at hu
  rcases e3 with _ | e <;> dsimp only at hu
  case some => simp at hu
  simp only [insertKidsF, Prod.mk.injEq, and_true] at hu
  subst hu
  obtain ⟨_, _, _, fpc, _, _, _, fB, _⟩ :=
    insertOpF_node_effect hins (by omega) (by omega)
  obtain ⟨j3, hj3, _, fc1, _⟩ := fB c sc_par_n hcpa
  constructor
  · exact fpc
  · rw [fc1, sc_cts_pa]
    have hile : (i : Int) ≤ ((delAt L i).length : Int) := by rw [hdlen]; omega
    rw [min_eq_left hile, pyIns_eq_insAt (by omega) hile, Int.toNat_ofNat]
    exact insAt_delAt hi

/-- Claim C5 witness: on `c5a` (node 1 at index 0 under node 0, with a
detached childless container 2), wrap then unwrap restores node 1 under
node 0 with the original contents list. -/
theorem claimC5_witness :
    wrapOpF 1 2 c5a = (c5aw1, none) ∧
    unwrapOpF 2 c5aw1 = (c5aw2, none) ∧
    (getN c5aw2 1).parent = some 0 ∧
    (getN c5aw2 0).contents = (getN c5a 0).contents := by
  refine ⟨by decide, by decide, ?_⟩
  have h := claimC5 c5a c5aw1 c5aw2 1 0 2 0 (by decide) (by decide) (by decide)
    (by decide) (by decide) (by decide) (by decide) (by decide) (by decide)
    (by decide) (by decide) (by decide) (by decide) (by decide)
    (by decide) (by decide)
  exact h

/-! ## Claim C10 -/

/-- Claim C10: inserting a plain Python string into a Tag wraps it in a
`NavigableString` first: after a successful `t.insert(p, s)` with a raw
string payload the freshly allocated element (id = old heap size) is a
`NavigableString` whose text is the payload, its parent is `t`, and it
is a member of `t.contents`; no raw string is ever stored as a child. -/
theorem claimC10 :
    ∀ (s s' : St) (t : Nat) (pos : Int) (txt : String),
      t < s.nodes.length →
      (getN s t).kind = .tag →
      insertOpF t pos (.raw txt) s = (s', none) →
      (getN s' s.nodes.length).kind = .nav ∧
      (getN s' s.nodes.length).text = txt ∧
      (getN s' s.nodes.length).parent = some t ∧
      s.nodes.length ∈ (getN s' t).contents ∧
      s'.nodes.length = s.nodes.length + 1 := by
  intro s s' t pos txt htv hkt h
  simp only [insertOpF] at h
  set sa : St := ⟨s.nodes ++ [{ kind := .nav, text := txt }]⟩ with hsa
  set c := s.nodes.length with hc
  have ha_t : getN sa t = getN s t := getN_alloc_lt htv
  have ha_c : getN sa c = { kind := .nav, text := txt } := getN_alloc_last
  have ha_len : sa.nodes.length = s.nodes.length + 1 := by
    simp [hsa]
  simp only [insertCommon, ha_t, ha_c, hkt] at h
  rw [if_neg (by simp)] at h
  obtain ⟨ek, et, epc, _, ects, _, eln⟩ :=
    insertTailF_effect h (by omega) (by omega)
  refine ⟨?_, ?_, ?_, ?_, ?_⟩
  · rw [ek c, ha_c]
  · rw [et c, ha_c]
  · exact epc
  · rw [ects]
    exact mem_pyIns _ _ _
  · omega

/-- Claim C10 witness: inserting the raw string "z" at position 1 of the
two-child tag of `c2s0` allocates node 3 as a `NavigableString` with
text "z", parent 0, placed in the contents. -/
theorem claimC10_witness :
    insertOpF 0 1 (.raw "z") c2s0 = (c10w, none) ∧
    (getN c10w c2s0.nodes.length).kind = .nav ∧
    (getN c10w c2s0.nodes.length).text = "z" ∧
    (getN c10w c2s0.nodes.length).parent = some 0 ∧
    c2s0.nodes.length ∈ (getN c10w 0).contents ∧
    c10w.nodes.length = c2s0.nodes.length + 1 := by
  refine ⟨by decide, ?_⟩
  exact claimC10 c2s0 c10w 0 1 "z" (by decide) (by decide) (by decide)

/-! ## Claim C7 -/

theorem takeRun_all {p : Char → Bool} :
    ∀ l, (∀ c ∈ l, p c = true) → takeRun p l = (l, []) := by
  intro l
  induction l with
  | nil => intro _; rfl
  | cons c rest ih =>
    intro h
    simp [takeRun, h c (List.mem_cons_self c rest),
          ih (fun x hx => h x (List.mem_cons_of_mem _ hx))]

theorem takeRun_stops {p : Char → Bool} :
    ∀ (l1 : List Char) (d : Char) (l2 : List Char),
      (∀ c ∈ l1, p c = true) → p d = false →
      takeRun p (l1 ++ d :: l2) = (l1, d :: l2) := by
  intro l1
  induction l1 with
  | nil => intro d l2 _ hd; simp [takeRun, hd]
  | cons c r ih =>
    intro d l2 h hd
    simp [takeRun, h c (List.mem_cons_self c r),
          ih d l2 (fun x hx => h x (List.mem_cons_of_mem _ hx)) hd]

theorem splitOnce_eq_none {sep : Char} :
    ∀ l, sep ∉ l → splitOnce sep l = none := by
  intro l
  induction l with
  | nil => intro _; rfl
  | cons c r ih =>
    intro h
    have hcs : ¬(c = sep) := fun hc => h (hc ▸ List.mem_cons_self c r)
    simp [splitOnce, hcs, ih (fun hm => h (List.mem_cons_of_mem _ hm))]

theorem stripCommaWs_wsFree :
    ∀ (l : List Char) (b : Bool), (∀ c ∈ l, isWsC c = false) →
      stripCommaWs b l = l := by
  intro l
  induction l with
  | nil => intro b _; rfl
  | cons c r ih =>
    intro b h
    simp only [stripCommaWs]
    rw [if_neg]
    · split <;> rw [ih _ (fun x hx => h x (List.mem_cons_of_mem _ hx))]
    · rintro ⟨-, hw⟩
      rw [h c (List.mem_cons_self c r)] at hw
      exact Bool.noConfusion hw

theorem wsTokens_wsFree :
    ∀ (l acc : List Char), (∀ c ∈ l, isWsC c = false) →
      acc ≠ [] ∨ l ≠ [] →
      wsTokens acc l = [String.mk (acc.reverse ++ l)] := by
  intro l
  induction l with
  | nil =>
    intro acc _ hne
    rcases hne with h | h
    · simp [wsTokens, h]
    · exact absurd rfl h
  | cons c r ih =>
    intro acc h _
    have hc := h c (List.mem_cons_self c r)
    rw [show wsTokens acc (c :: r) = wsTokens (c :: acc) r by
      simp [wsTokens, hc]]
    rw [ih (c :: acc) (fun x hx => h x (List.mem_cons_of_mem _ hx))
      (Or.inl (by simp))]
    simp

theorem tokenize_single :
    ∀ (tok : String), (∀ c ∈ tok.data, isWsC c = false) → tok.data ≠ [] →
      tokenize tok = [tok] := by
  intro tok h hne
  obtain ⟨l⟩ := tok
  simp only [tokenize]
  rw [stripCommaWs_wsFree l false h, wsTokens_wsFree l [] h (Or.inr hne)]
  rfl

theorem splitKeep_nomem :
    ∀ (l acc : List Char), ',' ∉ l →
      splitKeep ',' acc l = [String.mk (acc.reverse ++ l)] := by
  intro l
  induction l with
  | nil => intro acc _; simp [splitKeep]
  | cons c r ih =>
    intro acc h
    have hc : ¬(c = ',') := fun hc => h (hc ▸ List.mem_cons_self c r)
    simp only [splitKeep]
    rw [if_neg hc, ih (c :: acc) (fun hm => h (List.mem_cons_of_mem _ hm))]
    simp

theorem selectFueled_lastComb {s : St} {fuel root : Nat} {sel : String}
    {cg : Option GKind} {limit : Nat} {lt : String}
    (hl : (tokenize sel).getLast? = some lt)
    (hc : lt = ">" ∨ lt = "+" ∨ lt = "~") :
    selectFueled s (fuel+1) root sel cg limit = .error .valueError := by
  simp only [selectFueled, hl]
  rw [if_pos hc]

theorem groupsLoop_first_empty (s : St)
    (selRec : Nat → String → GKind → Except Err (List Nat))
    (tokens : List String) (cg : Option GKind) (limit : Nat)
    (g : String) (rem : List String) (idx : Nat) (ctx : List Nat)
    (h : (splitKeep ',' [] g.data).contains "" = true) :
    groupsLoop s selRec tokens cg limit (g :: rem) idx ctx =
      .error .valueError := by
  simp only [groupsLoop]
  rw [if_pos h]

theorem alnum_not_ws {c : Char} (h : c.isAlphanum = true) : isWsC c = false := by
  rcases hw : isWsC c
  · rfl
  · exfalso
    simp only [isWsC, Bool.or_eq_true, decide_eq_true_eq] at hw
    rcases hw with ((((rfl | rfl) | rfl) | rfl) | rfl) | rfl <;> simp at h

theorem classify_nth_badArg :
    ∀ (v : String), v.data ≠ [] → (∀ c ∈ v.data, c.isAlphanum = true) →
      pyIntOf v = none →
      classify ("a:nth-of-type(" ++ v ++ ")") = .error .notImplError := by
  intro v hne halnum hnum
  obtain ⟨lv⟩ := v
  simp only [String.data] at hne halnum
  have hattr : parseAttrib ("a:nth-of-type(" ++ (⟨lv⟩ : String) ++ ")").data
      = none := rfl
  have h35 : splitOnce '#' ("a:nth-of-type(" ++ (⟨lv⟩ : String) ++ ")").data
      = none := by
    apply splitOnce_eq_none
    intro hm
    rw [show ("a:nth-of-type(" ++ (⟨lv⟩ : String) ++ ")").data
        = 'a' :: ':' :: 'n' :: 't' :: 'h' :: '-' :: 'o' :: 'f' :: '-' :: 't' :: 'y' :: 'p' :: 'e' :: '(' :: (lv ++ [')'])
        from rfl] at hm
    simp at hm
    have := halnum '#' hm
    simp at this
  have h36 : splitOnce '.' ("a:nth-of-type(" ++ (⟨lv⟩ : String) ++ ")").data
      = none := by
    apply splitOnce_eq_none
    intro hm
    rw [show ("a:nth-of-type(" ++ (⟨lv⟩ : String) ++ ")").data
        = 'a' :: ':' :: 'n' :: 't' :: 'h' :: '-' :: 'o' :: 'f' :: '-' :: 't' :: 'y' :: 'p' :: 'e' :: '(' :: (lv ++ [')'])
        from rfl] at hm
    simp at hm
    have := halnum '.' hm
    simp at this
  have hcol : splitOnce ':' ("a:nth-of-type(" ++ (⟨lv⟩ : String) ++ ")").data
      = some (['a'], 'n' :: 't' :: 'h' :: '-' :: 'o' :: 'f' :: '-' :: 't' :: 'y' :: 'p' :: 'e' :: '(' :: (lv ++ [')'])) := rfl
  have hps : parsePseudo ('n' :: 't' :: 'h' :: '-' :: 'o' :: 'f' :: '-' :: 't' :: 'y' :: 'p' :: 'e' :: '(' :: (lv ++ [')']))
      = some ("nth-of-type", ⟨lv⟩) := by
    have hrv : takeRun Char.isAlphanum (lv ++ [')']) = (lv, [')']) :=
      takeRun_stops lv ')' [] halnum (by decide)
    have hrt : takeRun (fun c => c.isAlphanum || c = '-')
        ('n' :: 't' :: 'h' :: '-' :: 'o' :: 'f' :: '-' :: 't' :: 'y' :: 'p' :: 'e' :: '(' :: (lv ++ [')']))
        = (['n','t','h','-','o','f','-','t','y','p','e'], '(' :: (lv ++ [')'])) := rfl
    simp only [parsePseudo, hrt, hrv]
    rcases lv with _ | ⟨c, cs⟩
    · exact absurd rfl hne
    · simp
  simp only [classify, hattr, h35, h36, hcol, hps, hnum]
  simp

theorem classify_nth_low :
    ∀ (v : String) (k : Int), pyIntOf v = some k → k < 1 →
      classify ("a:nth-of-type(" ++ v ++ ")") = .error .valueError := by
  intro v k hnum hk
  have hguard : v.data ≠ [] ∧ v.data.all Char.isDigit := by
    by_contra hg
    rw [pyIntOf, if_neg hg] at hnum
    exact Option.noConfusion hnum
  have hne := hguard.1
  have halnum : ∀ c ∈ v.data, c.isAlphanum = true := by
    intro c hc
    have hd := (List.all_eq_true.mp hguard.2) c hc
    simp [Char.isAlphanum, hd]
  obtain ⟨lv⟩ := v
  simp only [String.data] at hne halnum
  have hattr : parseAttrib ("a:nth-of-type(" ++ (⟨lv⟩ : String) ++ ")").data
      = none := rfl
  have h35 : splitOnce '#' ("a:nth-of-type(" ++ (⟨lv⟩ : String) ++ ")").data
      = none := by
    apply splitOnce_eq_none
    intro hm
    rw [show ("a:nth-of-type(" ++ (⟨lv⟩ : String) ++ ")").data
        = 'a' :: ':' :: 'n' :: 't' :: 'h' :: '-' :: 'o' :: 'f' :: '-' :: 't' :: 'y' :: 'p' :: 'e' :: '(' :: (lv ++ [')'])
        from rfl] at hm
    simp at hm
    have := halnum '#' hm
    simp at this
  have h36 : splitOnce '.' ("a:nth-of-type(" ++ (⟨lv⟩ : String) ++ ")").data
      = none := by
    apply splitOnce_eq_none
    intro hm
    rw [show ("a:nth-of-type(" ++ (⟨lv⟩ : String) ++ ")").data
        = 'a' :: ':' :: 'n' :: 't' :: 'h' :: '-' :: 'o' :: 'f' :: '-' :: 't' :: 'y' :: 'p' :: 'e' :: '(' :: (lv ++ [')'])
        from rfl] at hm
    simp at hm
    have := halnum '.' hm
    simp at this
  have hcol : splitOnce ':' ("a:nth-of-type(" ++ (⟨lv⟩ : String) ++ ")").data
      = some (['a'], 'n' :: 't' :: 'h' :: '-' :: 'o' :: 'f' :: '-' :: 't' :: 'y' :: 'p' :: 'e' :: '(' :: (lv ++ [')'])) := rfl
  have hps : parsePseudo ('n' :: 't' :: 'h' :: '-' :: 'o' :: 'f' :: '-' :: 't' :: 'y' :: 'p' :: 'e' :: '(' :: (lv ++ [')']))
      = some ("nth-of-type", ⟨lv⟩) := by
    have hrv : takeRun Char.isAlphanum (lv ++ [')']) = (lv, [')']) :=
      takeRun_stops lv ')' [] halnum (by decide)
    have hrt : takeRun (fun c => c.isAlphanum || c = '-')
        ('n' :: 't' :: 'h' :: '-' :: 'o' :: 'f' :: '-' :: 't' :: 'y' :: 'p' :: 'e' :: '(' :: (lv ++ [')']))
        = (['n','t','h','-','o','f','-','t','y','p','e'], '(' :: (lv ++ [')'])) := rfl
    simp only [parsePseudo, hrt, hrv]
    rcases lv with _ | ⟨c, cs⟩
    · exact absurd rfl hne
    · simp
  simp only [classify, hattr, h35, h36, hcol, hps, hnum]
  simp [hk]

theorem classify_pseudo_word :
    ∀ (ps : String), (∀ c ∈ ps.data, c.isAlphanum = true ∨ c = '-') →
      ps ≠ "nth-of-type" →
      classify ("a:" ++ ps) = .error .notImplError := by
  intro ps hcls hneq
  obtain ⟨lp⟩ := ps
  simp only [String.data] at hcls
  have hdata : ("a:" ++ (⟨lp⟩ : String)).data = 'a' :: ':' :: lp := rfl
  have hall : ∀ c ∈ ('a' :: ':' :: lp), isTagCharR c = true := by
    intro c hc
    rcases List.mem_cons.mp hc with rfl | hc
    · decide
    rcases List.mem_cons.mp hc with rfl | hc
    · decide
    · rcases hcls c hc with h | h <;> simp [isTagCharR, h]
  have hattr : parseAttrib ("a:" ++ (⟨lp⟩ : String)).data = none := by
    rw [hdata]
    simp only [parseAttrib, takeRun_all _ hall]
    rfl
  have h35 : splitOnce '#' ("a:" ++ (⟨lp⟩ : String)).data = none := by
    apply splitOnce_eq_none
    intro hm
    rw [hdata] at hm
    simp at hm
    rcases hcls '#' hm with h | h <;> simp at h
  have h36 : splitOnce '.' ("a:" ++ (⟨lp⟩ : String)).data = none := by
    apply splitOnce_eq_none
    intro hm
    rw [hdata] at hm
    simp at hm
    rcases hcls '.' hm with h | h <;> simp at h
  have hcol : splitOnce ':' ("a:" ++ (⟨lp⟩ : String)).data = some (['a'], lp) := rfl
  have hall2 : ∀ c ∈ lp, (fun c => c.isAlphanum || c = '-') c = true := by
    intro c hc
    rcases hcls c hc with h | h <;> simp [h]
  have hps : parsePseudo lp = none := by
    simp only [parsePseudo, takeRun_all _ hall2]
    rcases lp with _ | ⟨c, cs⟩
    · simp
    · simp
  simp only [classify, hattr, h35, h36, hcol, hps]
  simp only [List.isEmpty_cons, Bool.false_eq_true, if_false]
  rw [if_neg hneq]

theorem classify_pseudo_paren :
    ∀ (nm v : String), nm.data ≠ [] → v.data ≠ [] →
      (∀ c ∈ nm.data, c.isAlphanum = true ∨ c = '-') →
      (∀ c ∈ v.data, c.isAlphanum = true) →
      nm ≠ "nth-of-type" →
      classify ("a:" ++ nm ++ "(" ++ v ++ ")") = .error .notImplError := by
  intro nm v hnne hvne hnmc hvc hneq
  obtain ⟨ln⟩ := nm
  obtain ⟨lv⟩ := v
  simp only [String.data] at hnne hvne hnmc hvc
  have hdata : ("a:" ++ (⟨ln⟩ : String) ++ "(" ++ (⟨lv⟩ : String) ++ ")").data
      = 'a' :: ':' :: (ln ++ '(' :: (lv ++ [')'])) := by
    show (((['a', ':'] ++ ln) ++ ['(']) ++ lv) ++ [')']
        = 'a' :: ':' :: (ln ++ '(' :: (lv ++ [')']))
    simp
  have hallTag : ∀ c ∈ ('a' :: ':' :: ln), isTagCharR c = true := by
    intro c hc
    rcases List.mem_cons.mp hc with rfl | hc
    · decide
    rcases List.mem_cons.mp hc with rfl | hc
    · decide
    · rcases hnmc c hc with h | h <;> simp [isTagCharR, h]
  have hattr : parseAttrib ("a:" ++ (⟨ln⟩ : String) ++ "(" ++ (⟨lv⟩ : String) ++ ")").data
      = none := by
    rw [hdata]
    have hrun : takeRun isTagCharR (('a' :: ':' :: ln) ++ '(' :: (lv ++ [')']))
        = ('a' :: ':' :: ln, '(' :: (lv ++ [')'])) :=
      takeRun_stops _ '(' _ hallTag (by decide)
    rw [show ('a' :: ':' :: (ln ++ '(' :: (lv ++ [')'])))
        = ('a' :: ':' :: ln) ++ '(' :: (lv ++ [')']) by simp]
    simp only [parseAttrib, hrun]
    rfl
  have h35 : splitOnce '#' ("a:" ++ (⟨ln⟩ : String) ++ "(" ++ (⟨lv⟩ : String) ++ ")").data
      = none := by
    apply splitOnce_eq_none
    intro hm
    rw [hdata] at hm
    simp at hm
    rcases hm with hm | hm
    · rcases hnmc '#' hm with h | h <;> simp at h
    · have := hvc '#' hm
      simp at this
  have h36 : splitOnce '.' ("a:" ++ (⟨ln⟩ : String) ++ "(" ++ (⟨lv⟩ : String) ++ ")").data
      = none := by
    apply splitOnce_eq_none
    intro hm
    rw [hdata] at hm
    simp at hm
    rcases hm with hm | hm
    · rcases hnmc '.' hm with h | h <;> simp at h
    · have := hvc '.' hm
      simp at this
  have hcol : splitOnce ':' ("a:" ++ (⟨ln⟩ : String) ++ "(" ++ (⟨lv⟩ : String) ++ ")").data
      = some (['a'], ln ++ '(' :: (lv ++ [')'])) := by
    rw [hdata]
    rfl
  have hallPs : ∀ c ∈ ln, (fun c => c.isAlphanum || c = '-') c = true := by
    intro c hc
    rcases hnmc c hc with h | h <;> simp [h]
  have hps : parsePseudo (ln ++ '(' :: (lv ++ [')']))
      = some (⟨ln⟩, ⟨lv⟩) := by
    have h1 : takeRun (fun c => c.isAlphanum || c = '-') (ln ++ '(' :: (lv ++ [')']))
        = (ln, '(' :: (lv ++ [')'])) :=
      takeRun_stops ln '(' _ hallPs (by decide)
    have h2 : takeRun Char.isAlphanum (lv ++ [')']) = (lv, [')']) :=
      takeRun_stops lv ')' [] hvc (by decide)
    simp only [parsePseudo, h1, h2]
    rcases ln with _ | ⟨c, cs⟩
    · exact absurd rfl hnne
    rcases lv with _ | ⟨d, ds⟩
    · exact absurd rfl hvne
    · simp
  simp only [classify, hattr, h35, h36, hcol, hps]
  simp only [List.isEmpty_cons, Bool.false_eq_true, if_false]
  rw [if_neg hneq]

theorem selectOp_classify_err :
    ∀ (s : St) (root : Nat) (tok : String) (limit : Nat) (e : Err),
      (∀ c ∈ tok.data, isWsC c = false) →
      ',' ∉ tok.data →
      tok.data ≠ [] →
      ¬(tok = ">" ∨ tok = "+" ∨ tok = "~") →
      classify tok = .error e →
      selectOp s root tok limit = .error e := by
  intro s root tok limit e hws hcm hne hcomb hcl
  obtain ⟨lt'⟩ := tok
  simp only [String.data] at hws hcm hne
  have htk : tokenize ⟨lt'⟩ = [⟨lt'⟩] := tokenize_single _ hws hne
  show selectFueled s ((⟨lt'⟩ : String).length + 1 + 1) root ⟨lt'⟩ none limit
      = .error e
  simp only [selectFueled, htk, List.getLast?_singleton]
  rw [if_neg hcomb]
  simp only [groupsLoop]
  rw [splitKeep_nomem lt' [] hcm]
  simp only [List.reverse_nil, List.nil_append]
  have hcont : (([String.mk lt'] : List String).contains "") = false := by
    simp only [List.contains_cons, List.contains_nil, Bool.or_false]
    rw [beq_eq_false_iff_ne]
    intro hcontra
    exact hne (congrArg String.data hcontra).symm
  rw [if_neg (by rw [hcont]; exact Bool.noConfusion)]
  simp only [List.getLast?_singleton, Option.getD_some, if_true]
  rw [if_neg hcomb]
  simp only [groupedLoop, Bind.bind, Except.bind, hcl]

/-- Claim C7: `select` raises a selector-syntax error at evaluation time
for each malformed class, universally: (1) any selector whose final
token is a bare combinator `>`, `+` or `~` raises `ValueError`; (2) any
single whitespace-free group containing an empty comma alternative
raises `ValueError`; (3) any non-numeric (alphanumeric, non-digit)
`nth-of-type` argument raises `NotImplementedError` (the `int()` failure
is re-raised as such); (4) any `nth-of-type` value below 1 raises
`ValueError`; (5) any pseudo-class name other than `nth-of-type` raises
`NotImplementedError`, both (6) in bare form and with a parenthesised
argument — on every heap, root, and limit. -/
theorem claimC7 :
    (∀ (s : St) (root : Nat) (sel : String) (limit : Nat) (lt : String),
      (tokenize sel).getLast? = some lt →
      lt = ">" ∨ lt = "+" ∨ lt = "~" →
      selectOp s root sel limit = .error .valueError) ∧
    (∀ (s : St) (root : Nat) (g : String) (limit : Nat),
      (∀ c ∈ g.data, isWsC c = false) →
      g.data ≠ [] →
      (splitKeep ',' [] g.data).contains "" = true →
      selectOp s root g limit = .error .valueError) ∧
    (∀ (s : St) (root : Nat) (limit : Nat) (v : String),
      v.data ≠ [] →
      (∀ c ∈ v.data, c.isAlphanum = true) →
      pyIntOf v = none →
      selectOp s root ("a:nth-of-type(" ++ v ++ ")") limit =
        .error .notImplError) ∧
    (∀ (s : St) (root : Nat) (limit : Nat) (v : String) (k : Int),
      pyIntOf v = some k →
      k < 1 →
      selectOp s root ("a:nth-of-type(" ++ v ++ ")") limit =
        .error .valueError) ∧
    (∀ (s : St) (root : Nat) (limit : Nat) (ps : String),
      (∀ c ∈ ps.data, c.isAlphanum = true ∨ c = '-') →
      ps ≠ "nth-of-type" →
      selectOp s root ("a:" ++ ps) limit = .error .notImplError) ∧
    (∀ (s : St) (root : Nat) (limit : Nat) (nm v : String),
      nm.data ≠ [] → v.data ≠ [] →
      (∀ c ∈ nm.data, c.isAlphanum = true ∨ c = '-') →
      (∀ c ∈ v.data, c.isAlphanum = true) →
      nm ≠ "nth-of-type" →
      selectOp s root ("a:" ++ nm ++ "(" ++ v ++ ")") limit =
        .error .notImplError) := by
  have sideNth : ∀ (v : String), (∀ c ∈ v.data, c.isAlphanum = true) →
      (∀ c ∈ ("a:nth-of-type(" ++ v ++ ")").data, isWsC c = false) ∧
      ',' ∉ ("a:nth-of-type(" ++ v ++ ")").data ∧
      ("a:nth-of-type(" ++ v ++ ")").data ≠ [] ∧
      ¬("a:nth-of-type(" ++ v ++ ")" = ">" ∨
        "a:nth-of-type(" ++ v ++ ")" = "+" ∨
        "a:nth-of-type(" ++ v ++ ")" = "~") := by
    intro v halnum
    obtain ⟨lv⟩ := v
    simp only [String.data] at halnum
    have hdata : ("a:nth-of-type(" ++ (⟨lv⟩ : String) ++ ")").data
        = 'a' :: ':' :: 'n' :: 't' :: 'h' :: '-' :: 'o' :: 'f' :: '-' :: 't' :: 'y' :: 'p' :: 'e' :: '(' :: (lv ++ [')'])
        := rfl
    refine ⟨?_, ?_, ?_, ?_⟩
    · intro c hc
      rw [hdata] at hc
      simp at hc
      rcases hc with rfl|rfl|rfl|rfl|rfl|rfl|rfl|rfl|rfl|rfl|rfl|rfl|rfl|rfl|hc
      case _ => decide
      all_goals try decide
      rcases hc with hc | rfl
      · exact alnum_not_ws (halnum c hc)
      · decide
    · intro hm
      rw [hdata] at hm
      simp at hm
      have := halnum ',' hm
      simp at this
    · rw [hdata]
      simp
    · rintro (hcontra | hcontra | hcontra) <;>
        exact absurd (congrArg String.data hcontra) (by rw [hdata]; simp)
  have sidePs : ∀ (ps : String), (∀ c ∈ ps.data, c.isAlphanum = true ∨ c = '-') →
      (∀ c ∈ ("a:" ++ ps).data, isWsC c = false) ∧
      ',' ∉ ("a:" ++ ps).data ∧
      ("a:" ++ ps).data ≠ [] ∧
      ¬("a:" ++ ps = ">" ∨ "a:" ++ ps = "+" ∨ "a:" ++ ps = "~") := by
    intro ps hcls
    obtain ⟨lp⟩ := ps
    simp only [String.data] at hcls
    have hdata : ("a:" ++ (⟨lp⟩ : String)).data = 'a' :: ':' :: lp := rfl
    refine ⟨?_, ?_, ?_, ?_⟩
    · intro c hc
      rw [hdata] at hc
      simp at hc
      rcases hc with rfl | rfl | hc
      · decide
      · decide
      · rcases hcls c hc with h | h
        · exact alnum_not_ws h
        · subst h; decide
    · intro hm
      rw [hdata] at hm
      simp at hm
      rcases hcls ',' hm with h | h <;> simp at h
    · rw [hdata]
      simp
    · rintro (hcontra | hcontra | hcontra) <;>
        exact absurd (congrArg String.data hcontra) (by rw [hdata]; simp)
  have sideParen : ∀ (nm v : String),
      (∀ c ∈ nm.data, c.isAlphanum = true ∨ c = '-') →
      (∀ c ∈ v.data, c.isAlphanum = true) →
      (∀ c ∈ ("a:" ++ nm ++ "(" ++ v ++ ")").data, isWsC c = false) ∧
      ',' ∉ ("a:" ++ nm ++ "(" ++ v ++ ")").data ∧
      ("a:" ++ nm ++ "(" ++ v ++ ")").data ≠ [] ∧
      ¬("a:" ++ nm ++ "(" ++ v ++ ")" = ">" ∨
        "a:" ++ nm ++ "(" ++ v ++ ")" = "+" ∨
        "a:" ++ nm ++ "(" ++ v ++ ")" = "~") := by
    intro nm v hnmc hvc
    obtain ⟨ln⟩ := nm
    obtain ⟨lv⟩ := v
    simp only [String.data] at hnmc hvc
    have hdata : ("a:" ++ (⟨ln⟩ : String) ++ "(" ++ (⟨lv⟩ : String) ++ ")").data
        = 'a' :: ':' :: (ln ++ '(' :: (lv ++ [')'])) := by
      show (((['a', ':'] ++ ln) ++ ['(']) ++ lv) ++ [')']
          = 'a' :: ':' :: (ln ++ '(' :: (lv ++ [')']))
      simp
    refine ⟨?_, ?_, ?_, ?_⟩
    · intro c hc
      rw [hdata] at hc
      simp at hc
      rcases hc with rfl | rfl | hc | rfl | hc | rfl
      · decide
      · decide
      · rcases hnmc c hc with h | h
        · exact alnum_not_ws h
        · subst h; decide
      · decide
      · exact alnum_not_ws (hvc c hc)
      · decide
    · intro hm
      rw [hdata] at hm
      simp at hm
      rcases hm with hm | hm
      · rcases hnmc ',' hm with h | h <;> simp at h
      · have := hvc ',' hm
        simp at this
    · rw [hdata]
      simp
    · rintro (hcontra | hcontra | hcontra) <;>
        exact absurd (congrArg String.data hcontra) (by rw [hdata]; simp)
  refine ⟨?_, ?_, ?_, ?_, ?_, ?_⟩
  · intro s root sel limit lt hl hc
    show selectFueled s (sel.length + 1 + 1) root sel none limit = _
    exact selectFueled_lastComb hl hc
  · intro s root g limit hws hne hcont
    have hcomb : ¬(g = ">" ∨ g = "+" ∨ g = "~") := by
      rintro (rfl | rfl | rfl) <;> exact absurd hcont (by decide)
    have htk := tokenize_single g hws hne
    show selectFueled s (g.length + 1 + 1) root g none limit = _
    simp only [selectFueled, htk, List.getLast?_singleton]
    rw [if_neg hcomb]
    exact groupsLoop_first_empty s _ [g] none limit g [] 0 [root] hcont
  · intro s root limit v hne halnum hnum
    obtain ⟨hws, hcm, hne2, hcomb⟩ := sideNth v halnum
    exact selectOp_classify_err s root _ limit _ hws hcm hne2 hcomb
      (classify_nth_badArg v hne halnum hnum)
  · intro s root limit v k hnum hk
    have hguard : v.data ≠ [] ∧ v.data.all Char.isDigit := by
      by_contra hg
      rw [pyIntOf, if_neg hg] at hnum
      exact Option.noConfusion hnum
    have halnum : ∀ c ∈ v.data, c.isAlphanum = true := by
      intro c hc
      have hd := (List.all_eq_true.mp hguard.2) c hc
      simp [Char.isAlphanum, hd]
    obtain ⟨hws, hcm, hne2, hcomb⟩ := sideNth v halnum
    exact selectOp_classify_err s root _ limit _ hws hcm hne2 hcomb
      (classify_nth_low v k hnum hk)
  · intro s root limit ps hcls hneq
    obtain ⟨hws, hcm, hne2, hcomb⟩ := sidePs ps hcls
    exact selectOp_classify_err s root _ limit _ hws hcm hne2 hcomb
      (classify_pseudo_word ps hcls hneq)
  · intro s root limit nm v hnne hvne hnmc hvc hneq
    obtain ⟨hws, hcm, hne2, hcomb⟩ := sideParen nm v hnmc hvc
    exact selectOp_classify_err s root _ limit _ hws hcm hne2 hcomb
      (classify_pseudo_paren nm v hnne hvne hnmc hvc hneq)

/-- Claim C7 witness: all six classes instantiated on `s6` — the three
trailing combinators, an empty comma alternative, `nth-of-type(x)`,
`nth-of-type(0)`, `:hover`, and `:nth-child(2)`. -/
theorem claimC7_witness :
    selectOp s6 0 "a >" 0 = .error .valueError ∧
    selectOp s6 0 "a +" 0 = .error .valueError ∧
    selectOp s6 0 "a ~" 0 = .error .valueError ∧
    selectOp s6 0 "a,,b" 0 = .error .valueError ∧
    selectOp s6 0 ("a:nth-of-type(" ++ "x" ++ ")") 0 = .error .notImplError ∧
    selectOp s6 0 ("a:nth-of-type(" ++ "0" ++ ")") 0 = .error .valueError ∧
    selectOp s6 0 ("a:" ++ "hover") 0 = .error .notImplError ∧
    selectOp s6 0 ("a:" ++ "nth-child" ++ "(" ++ "2" ++ ")") 0 =
      .error .notImplError := by
  refine ⟨claimC7.1 s6 0 "a >" 0 ">" (by decide) (by decide),
          claimC7.1 s6 0 "a +" 0 "+" (by decide) (by decide),
          claimC7.1 s6 0 "a ~" 0 "~" (by decide) (by decide),
          claimC7.2.1 s6 0 "a,,b" 0 (by decide) (by decide) (by decide),
          claimC7.2.2.1 s6 0 0 "x" (by decide) (by decide) (by decide),
          claimC7.2.2.2.1 s6 0 0 "0" 0 (by decide) (by decide),
          claimC7.2.2.2.2.1 s6 0 0 "hover" (by decide) (by decide),
          claimC7.2.2.2.2.2 s6 0 0 "nth-child" "2" (by decide) (by decide)
            (by decide) (by decide) (by decide)⟩

/-! ## Claim C9 -/

/-- Claim C9: on any tag whose `class` attribute stores the list
`["a", "b"]`, the class-selector token `.a.b` classifies to a
subset checker that matches, `.a.c` to one that does not, and the
attribute-operator token `[class~="a"]` to a `~=` checker that matches
(the stored list is searched for the word "a"). -/
theorem claimC9 :
    ∀ (s : St) (i cnt : Nat),
      (getN s i).attrs.lookup "class" = some (.lst ["a", "b"]) →
      classify ".a.b" = .ok (.plain "" (some (.classesSub ["a", "b"]))) ∧
      classify ".a.c" = .ok (.plain "" (some (.classesSub ["a", "c"]))) ∧
      classify "[class~=\"a\"]" =
        .ok (.plain "" (some (.attrOp (some '~') "class" "a"))) ∧
      evalChk s (.classesSub ["a", "b"]) i cnt = (some true, cnt) ∧
      evalChk s (.classesSub ["a", "c"]) i cnt = (some false, cnt) ∧
      evalChk s (.attrOp (some '~') "class" "a") i cnt = (some true, cnt) := by
  intro s i cnt hcls
  refine ⟨rfl, rfl, rfl, ?_, ?_, ?_⟩
  · simp [evalChk, hcls]
  · simp [evalChk, hcls]
  · simp [evalChk, evalAttrOp, hcls]

/-- Claim C9 witness: the three checkers evaluated on the single tag of
`s9`, whose class attribute is the list `["a", "b"]`. -/
theorem claimC9_witness :
    (getN s9 0).attrs.lookup "class" = some (.lst ["a", "b"]) ∧
    evalChk s9 (.classesSub ["a", "b"]) 0 0 = (some true, 0) ∧
    evalChk s9 (.classesSub ["a", "c"]) 0 0 = (some false, 0) ∧
    evalChk s9 (.attrOp (some '~') "class" "a") 0 0 = (some true, 0) := by
  have h := claimC9 s9 0 0 (by decide)
  exact ⟨by decide, h.2.2.2.1, h.2.2.2.2.1, h.2.2.2.2.2⟩

/-! ## Claim C8 -/

theorem infixConsLift {x l : List Char} {a : Char} (h : x <:+: l) :
    x <:+: a :: l := by
  obtain ⟨s, t, h⟩ := h
  exact ⟨a :: s, t, by rw [← h]; rfl⟩

theorem subXmlCEChars_no_lt : ∀ l, '<' ∉ subXmlCEChars l := by
  intro l
  induction l using subXmlCEChars.induct <;> simp_all [subXmlCEChars]
  intro h
  subst h
  simp_all

theorem subXmlChars_no_lt : ∀ l, '<' ∉ subXmlChars l := by
  intro l
  induction l using subXmlChars.induct <;> simp_all [subXmlChars]
  intro h
  subst h
  simp_all

theorem subXmlCEChars_infix_lt :
    ∀ l, '<' ∈ l → ['&', 'l', 't', ';'] <:+: subXmlCEChars l := by
  intro l
  induction l using subXmlCEChars.induct with
  | case1 => simp
  | case2 r hent ih =>
    intro hm
    simp only [subXmlCEChars, if_pos hent]
    exact infixConsLift (ih (by simpa using hm))
  | case3 r hent ih =>
    intro hm
    simp only [subXmlCEChars, if_neg hent]
    exact infixConsLift (infixConsLift (infixConsLift (infixConsLift
      (infixConsLift (ih (by simpa using hm))))))
  | case4 r ih =>
    intro hm
    exact ⟨[], subXmlCEChars r, rfl⟩
  | case5 r ih =>
    intro hm
    simp only [subXmlCEChars]
    exact infixConsLift (infixConsLift (infixConsLift (infixConsLift
      (ih (by simpa using hm)))))
  | case6 c r h1 h2 h3 ih =>
    intro hm
    rw [subXmlCEChars.eq_5 c r h1 h2 h3]
    refine infixConsLift (ih ?_)
    rcases List.mem_cons.mp hm with hc | hc
    · exact (h2 hc.symm).elim
    · exact hc

theorem subXmlChars_infix_lt :
    ∀ l, '<' ∈ l → ['&', 'l', 't', ';'] <:+: subXmlChars l := by
  intro l
  induction l using subXmlChars.induct with
  | case1 => simp
  | case2 r ih =>
    intro hm
    simp only [subXmlChars]
    exact infixConsLift (infixConsLift (infixConsLift (infixConsLift
      (infixConsLift (ih (by simpa using hm))))))
  | case3 r ih =>
    intro hm
    exact ⟨[], subXmlChars r, rfl⟩
  | case4 r ih =>
    intro hm
    simp only [subXmlChars]
    exact infixConsLift (infixConsLift (infixConsLift (infixConsLift
      (ih (by simpa using hm)))))
  | case5 c r h1 h2 h3 ih =>
    intro hm
    rw [subXmlChars.eq_5 c r h1 h2 h3]
    refine infixConsLift (ih ?_)
    rcases List.mem_cons.mp hm with hc | hc
    · exact (h2 hc.symm).elim
    · exact hc

theorem mk_ne_empty {l : List Char} (h : l ≠ []) :
    (String.mk l).isEmpty = false := by
  rw [Bool.eq_false_iff]
  intro hcontra
  rw [String.isEmpty_iff] at hcontra
  apply h
  have := congrArg String.data hcontra
  simpa using this

/-- Claim C8 counterexample to the original statement: under the
`formatter=None` policy the text child of a generic `<p>` is rendered
by the identity function, so a `<` in it is NOT escaped. -/
theorem claimC8_counterexample :
    decodeOp (c8st "<") 2 none .fnone " " = "<p><</p>" ∧
    decodeOp (c8st "<") 2 none .fnone " " ≠ "<p>&lt;</p>" := by
  have hne : ("<" : String).isEmpty = false := rfl
  have heq : decodeOp (c8st "<") 2 none .fnone " " = "<p><</p>" := by
    simp [decodeOp, decodeTag, decodeCts, decodeCtsLoop, fmtForName, isXmlOf,
          fuelOf, c8st, getN, shouldPretty, decodeAttrs, outputReady,
          applyFmtNS, cdataContainingTags, nonBreakingInline, repChars, hne,
          truthyO]
    rfl
  refine ⟨heq, ?_⟩
  rw [heq]
  decide

/-- Claim C8 (amended): a `<script>` tag's text child containing `<` is
rendered unescaped under ALL three formatter policies (cdata
protection), while under the `minimal` and `html` policies — but not
under `formatter=None` — the same text as the child of a `<p>` is
escaped: the rendered text has no `<` left and contains `&lt;`. -/
theorem claimC8 :
    ∀ (txt : String) (f : Fmt), '<' ∈ txt.data →
      decodeOp (c8st txt) 0 none f " " = "<script>" ++ txt ++ "</script>" ∧
      decodeOp (c8st txt) 2 none .fminimal " " = "<p>" ++ subXmlCES txt ++ "</p>" ∧
      decodeOp (c8st txt) 2 none .fhtml " " = "<p>" ++ subHtmlS txt ++ "</p>" ∧
      '<' ∉ (subXmlCES txt).data ∧
      "&lt;".data <:+: (subXmlCES txt).data ∧
      '<' ∉ (subHtmlS txt).data ∧
      "&lt;".data <:+: (subHtmlS txt).data := by
  intro txt f hlt
  have hne : txt.isEmpty = false := by
    cases txt with
    | mk l =>
      cases l with
      | nil => exact absurd hlt (List.not_mem_nil _)
      | cons c cs => exact mk_ne_empty (by simp)
  have hinf1 : ['&', 'l', 't', ';'] <:+: subXmlCEChars txt.data :=
    subXmlCEChars_infix_lt _ hlt
  have hinf2 : ['&', 'l', 't', ';'] <:+: subXmlChars txt.data :=
    subXmlChars_infix_lt _ hlt
  have hCEne : subXmlCEChars txt.data ≠ [] := by
    intro h0
    rw [h0] at hinf1
    obtain ⟨s, t, habs⟩ := hinf1
    simp at habs
  have hCne : subXmlChars txt.data ≠ [] := by
    intro h0
    rw [h0] at hinf2
    obtain ⟨s, t, habs⟩ := hinf2
    simp at habs
  have hne1 : (subXmlCES txt).isEmpty = false := mk_ne_empty hCEne
  have hne2 : (subHtmlS txt).isEmpty = false := mk_ne_empty hCne
  refine ⟨?_, ?_, ?_, subXmlCEChars_no_lt _, hinf1, subXmlChars_no_lt _, hinf2⟩
  · cases f <;>
      simp [decodeOp, decodeTag, decodeCts, decodeCtsLoop, fmtForName, isXmlOf,
            fuelOf, c8st, getN, shouldPretty, decodeAttrs, outputReady,
            applyFmtNS, cdataContainingTags, nonBreakingInline, repChars, hne,
            truthyO]
  · simp [decodeOp, decodeTag, decodeCts, decodeCtsLoop, fmtForName, isXmlOf,
          fuelOf, c8st, getN, shouldPretty, decodeAttrs, outputReady,
          applyFmtNS, cdataContainingTags, nonBreakingInline, repChars, hne1,
          truthyO]
  · simp [decodeOp, decodeTag, decodeCts, decodeCtsLoop, fmtForName, isXmlOf,
          fuelOf, c8st, getN, shouldPretty, decodeAttrs, outputReady,
          applyFmtNS, cdataContainingTags, nonBreakingInline, repChars, hne2,
          truthyO]

/-- Claim C8 witness: the payload "a<b" under the `html` policy for the
script half and the `minimal` policy for the `<p>` half. -/
theorem claimC8_witness :
    '<' ∈ "a<b".data ∧
    decodeOp (c8st "a<b") 0 none .fhtml " " = "<script>" ++ "a<b" ++ "</script>" ∧
    decodeOp (c8st "a<b") 2 none .fminimal " " =
      "<p>" ++ subXmlCES "a<b" ++ "</p>" ∧
    "&lt;".data <:+: (subXmlCES "a<b").data := by
  have h := claimC8 "a<b" .fhtml (by decide)
  exact ⟨by decide, h.1, h.2.1, h.2.2.2.2.1⟩

/-! ## Claim C6 -/

theorem nodup_snoc {l : List Nat} {a : Nat} (h : l.Nodup) (ha : a ∉ l) :
    (l ++ [a]).Nodup := by
  simp [List.nodup_append, h, ha]

theorem scanCands_nodup (s : St) (tn : String) (chk : Option Chk) (limit : Nat) :
    ∀ (cands : List Nat) (acc : ScanAcc), acc.ctx.Nodup →
      (scanCands s tn chk limit cands acc).ctx.Nodup := by
  intro cands
  induction cands with
  | nil => intro acc h; simpa [scanCands] using h
  | cons cand rest ih =>
    intro acc h
    simp only [scanCands]
    split
    · exact ih _ h
    · split
      · exact ih _ h
      · split
        · split
          · exact h
          · exact ih _ h
          · split
            · exact ih _ h
            · rename_i hnc
              have hmem : cand ∉ acc.ctx := by simpa using hnc
              split
              · exact nodup_snoc h hmem
              · exact ih _ (nodup_snoc h hmem)
        · split
          · exact ih _ h
          · rename_i hnc
            have hmem : cand ∉ acc.ctx := by simpa using hnc
            split
            · exact nodup_snoc h hmem
            · exact ih _ (nodup_snoc h hmem)

theorem scanCands_len (s : St) (tn : String) (chk : Option Chk) {limit : Nat}
    (h0 : limit ≠ 0) :
    ∀ (cands : List Nat) (acc : ScanAcc), acc.ctx.length < limit →
      (scanCands s tn chk limit cands acc).ctx.length ≤ limit := by
  intro cands
  induction cands with
  | nil => intro acc h; simpa [scanCands] using Nat.le_of_lt h
  | cons cand rest ih =>
    intro acc h
    simp only [scanCands]
    split
    · exact ih _ h
    · split
      · exact ih _ h
      · split
        · split
          · exact Nat.le_of_lt h
          · exact ih _ h
          · split
            · exact ih _ h
            · split
              · rename_i hstop
                simpa using h
              · rename_i hgo
                refine ih _ ?_
                simp only [not_and, not_le] at hgo
                simpa using hgo h0
        · split
          · exact ih _ h
          · split
            · rename_i hstop
              simpa using h
            · rename_i hgo
              refine ih _ ?_
              simp only [not_and, not_le] at hgo
              simpa using hgo h0

theorem runToken_nodup (s : St) (gen : Nat → Except Err (List Nat))
    (tn : String) (chk : Option Chk) (limit : Nat) :
    ∀ (tags : List Nat) (acc : ScanAcc) (r : ScanAcc), acc.ctx.Nodup →
      runToken s gen tn chk limit tags acc = .ok r → r.ctx.Nodup := by
  intro tags
  induction tags with
  | nil =>
    intro acc r h hr
    simp only [runToken] at hr
    injection hr with hr
    subst hr
    exact h
  | cons tg rest ih =>
    intro acc r h hr
    simp only [runToken] at hr
    rcases hg : gen tg with e | cands <;> rw [hg] at hr
    · simp only [Bind.bind, Except.bind] at hr
      exact Except.noConfusion hr
    · simp only [Bind.bind, Except.bind] at hr
      exact ih _ _ (scanCands_nodup s tn chk limit cands acc h) hr

theorem runToken_len (s : St) (gen : Nat → Except Err (List Nat))
    (tn : String) (chk : Option Chk) {limit : Nat} (h0 : limit ≠ 0) :
    ∀ (tags : List Nat) (r : ScanAcc), tags.length ≤ 1 →
      runToken s gen tn chk limit tags ⟨[], 0⟩ = .ok r →
      r.ctx.length ≤ limit := by
  intro tags r hlen hr
  match tags with
  | [] =>
    simp only [runToken] at hr
    injection hr with hr
    subst hr
    simp
  | [tg] =>
    simp only [runToken] at hr
    rcases hg : gen tg with e | cands <;> rw [hg] at hr
    · simp only [Bind.bind, Except.bind] at hr
      exact Except.noConfusion hr
    · simp only [Bind.bind, Except.bind, runToken] at hr
      injection hr with hr
      subst hr
      exact scanCands_len s tn chk h0 cands ⟨[], 0⟩
        (by simpa using Nat.pos_of_ne_zero h0)
  | _ :: _ :: _ => simp at hlen

theorem groupedLoop_nodup (s : St)
    (selRec : Nat → String → GKind → Except Err (List Nat))
    (tokens : List String) (idx : Nat) (cg : Option GKind) (limit : Nat)
    (ctx : List Nat) :
    ∀ (toks : List String) (acc out : List Nat), acc.Nodup →
      groupedLoop s selRec tokens idx cg limit ctx toks acc = .ok out →
      out.Nodup := by
  intro toks
  induction toks with
  | nil =>
    intro acc out h hr
    simp only [groupedLoop] at hr
    injection hr with hr
    subst hr
    exact h
  | cons token rest ih =>
    intro acc out h hr
    simp only [groupedLoop, Bind.bind, Except.bind] at hr
    rcases hc : classify token with e | tk <;> rw [hc] at hr
    · exact Except.noConfusion hr
    · cases tk with
      | plain tn chk =>
        simp only [Bind.bind, Except.bind] at hr
        rcases hrt : runToken s (genFor s cg) tn chk limit ctx ⟨acc, 0⟩
          with e | r <;> rw [hrt] at hr
        · exact Except.noConfusion hr
        · exact ih _ _ (runToken_nodup s _ tn chk limit ctx ⟨acc, 0⟩ r h hrt) hr
      | comb g =>
        rcases hn : tokens.get? (idx+1) with _ | ntok <;> rw [hn] at hr
        · exact Except.noConfusion hr
        · simp only [Bind.bind, Except.bind] at hr
          rcases hrt : runToken s (fun tg => selRec tg ntok g) "" none limit ctx
            ⟨acc, 0⟩ with e | r <;> rw [hrt] at hr
          · exact Except.noConfusion hr
          · exact ih _ _ (runToken_nodup s _ "" none limit ctx ⟨acc, 0⟩ r h hrt) hr

theorem groupedLoop_single_len (s : St)
    (selRec : Nat → String → GKind → Except Err (List Nat))
    (tokens : List String) (idx : Nat) (cg : Option GKind) {limit : Nat}
    (h0 : limit ≠ 0) (ctx : List Nat) (hctx : ctx.length ≤ 1) (tk : String)
    (out : List Nat) :
    groupedLoop s selRec tokens idx cg limit ctx [tk] [] = .ok out →
    out.length ≤ limit := by
  intro hr
  simp only [groupedLoop, Bind.bind, Except.bind] at hr
  rcases hc : classify tk with e | t <;> rw [hc] at hr
  · exact Except.noConfusion hr
  · cases t with
    | plain tn chk =>
      simp only [Bind.bind, Except.bind] at hr
      rcases hrt : runToken s (genFor s cg) tn chk limit ctx ⟨[], 0⟩
        with e | r <;> rw [hrt] at hr
      · exact Except.noConfusion hr
      · simp only [groupedLoop] at hr
        injection hr with hr
        subst hr
        exact runToken_len s _ tn chk h0 ctx r hctx hrt
    | comb g =>
      rcases hn : tokens.get? (idx+1) with _ | ntok <;> rw [hn] at hr
      · exact Except.noConfusion hr
      · simp only [Bind.bind, Except.bind] at hr
        rcases hrt : runToken s (fun tg => selRec tg ntok g) "" none limit ctx
          ⟨[], 0⟩ with e | r <;> rw [hrt] at hr
        · exact Except.noConfusion hr
        · simp only [groupedLoop] at hr
          injection hr with hr
          subst hr
          exact runToken_len s _ "" none h0 ctx r hctx hrt

theorem groupsLoop_nodup (s : St)
    (selRec : Nat → String → GKind → Except Err (List Nat))
    (tokens : List String) (cg : Option GKind) (limit : Nat) :
    ∀ (rem : List String) (idx : Nat) (ctx out : List Nat), ctx.Nodup →
      groupsLoop s selRec tokens cg limit rem idx ctx = .ok out →
      out.Nodup := by
  intro rem
  induction rem with
  | nil =>
    intro idx ctx out h hr
    simp only [groupsLoop] at hr
    injection hr with hr
    subst hr
    exact h
  | cons g rem ih =>
    intro idx ctx out h hr
    simp only [groupsLoop] at hr
    split at hr
    · exact Except.noConfusion hr
    · split at hr <;> split at hr
      · exact ih _ _ _ h hr
      · simp only [Bind.bind, Except.bind] at hr
        rcases hg : groupedLoop s selRec tokens idx cg limit ctx
          (splitKeep ',' [] g.data) [] with e | ctx1 <;> rw [hg] at hr
        · exact Except.noConfusion hr
        · exact ih _ _ _
            (groupedLoop_nodup s selRec tokens idx cg limit ctx _ [] ctx1
              (List.nodup_nil) hg) hr
      · exact ih _ _ _ h hr
      · simp only [Bind.bind, Except.bind] at hr
        rcases hg : groupedLoop s selRec tokens idx cg limit ctx
          (splitKeep ',' [] g.data) [] with e | ctx1 <;> rw [hg] at hr
        · exact Except.noConfusion hr
        · exact ih _ _ _
            (groupedLoop_nodup s selRec tokens idx cg limit ctx _ [] ctx1
              (List.nodup_nil) hg) hr

theorem groupsLoop_len1 (s : St)
    (selRec : Nat → String → GKind → Except Err (List Nat))
    (tokens : List String) (cg : Option GKind) :
    ∀ (rem : List String) (idx : Nat) (ctx out : List Nat),
      (∀ g ∈ rem, splitKeep ',' [] g.data = [g]) →
      ctx.length ≤ 1 →
      groupsLoop s selRec tokens cg 1 rem idx ctx = .ok out →
      out.length ≤ 1 := by
  intro rem
  induction rem with
  | nil =>
    intro idx ctx out hcf h hr
    simp only [groupsLoop] at hr
    injection hr with hr
    subst hr
    exact h
  | cons g rem ih =>
    intro idx ctx out hcf h hr
    simp only [groupsLoop] at hr
    rw [hcf g (List.mem_cons_self g rem)] at hr
    split at hr
    · exact Except.noConfusion hr
    · split at hr <;> split at hr
      · exact ih _ _ _ (fun x hx => hcf x (List.mem_cons_of_mem _ hx)) h hr
      · simp only [Bind.bind, Except.bind] at hr
        rcases hg : groupedLoop s selRec tokens idx cg 1 ctx [g] []
          with e | ctx1 <;> rw [hg] at hr
        · exact Except.noConfusion hr
        · exact ih _ _ _ (fun x hx => hcf x (List.mem_cons_of_mem _ hx))
            (groupedLoop_single_len s selRec tokens idx cg (by decide) ctx h g
              ctx1 hg) hr
      · exact ih _ _ _ (fun x hx => hcf x (List.mem_cons_of_mem _ hx)) h hr
      · simp only [Bind.bind, Except.bind] at hr
        rcases hg : groupedLoop s selRec tokens idx cg 1 ctx [g] []
          with e | ctx1 <;> rw [hg] at hr
        · exact Except.noConfusion hr
        · exact ih _ _ _ (fun x hx => hcf x (List.mem_cons_of_mem _ hx))
            (groupedLoop_single_len s selRec tokens idx cg (by decide) ctx h g
              ctx1 hg) hr

theorem selectFueled_nodup :
    ∀ (fuel : Nat) (s : St) (root : Nat) (sel : String) (cg : Option GKind)
      (limit : Nat) (out : List Nat),
      selectFueled s fuel root sel cg limit = .ok out → out.Nodup := by
  intro fuel s root sel cg limit out h
  cases fuel with
  | zero => exact Except.noConfusion h
  | succ fuel =>
    simp only [selectFueled] at h
    split at h
    · exact Except.noConfusion h
    · split at h
      · exact Except.noConfusion h
      · exact groupsLoop_nodup s _ (tokenize sel) cg limit (tokenize sel) 0
          [root] out (List.nodup_singleton root) h

theorem selectFueled_len1 :
    ∀ (fuel : Nat) (s : St) (root : Nat) (sel : String) (cg : Option GKind)
      (out : List Nat),
      (∀ g ∈ tokenize sel, splitKeep ',' [] g.data = [g]) →
      selectFueled s fuel root sel cg 1 = .ok out → out.length ≤ 1 := by
  intro fuel s root sel cg out hcf h
  cases fuel with
  | zero => exact Except.noConfusion h
  | succ fuel =>
    simp only [selectFueled] at h
    split at h
    · exact Except.noConfusion h
    · split at h
      · exact Except.noConfusion h
      · exact groupsLoop_len1 s _ (tokenize sel) cg (tokenize sel) 0 [root] out
          hcf (by simp) h

/-- Claim C6, counterexample to the limit half: with `limit=2` the
selector "a b" on `s6` returns three elements — the `break` on reaching
the limit only exits the inner candidate loop, and each further context
element can still append matches. -/
theorem claimC6_counterexample :
    selectOp s6 0 "a b" 2 = .ok [2, 3, 5] ∧ (2 : Nat) ≠ 0 ∧
    2 < [2, 3, 5].length := by
  refine ⟨by decide, by decide, by decide⟩

/-- Claim C6 (amended): every successful `select` returns an
identity-deduplicated, duplicate-free sequence; the limit bound however
only holds in restricted cases — proved here for `limit = 1` with a
comma-free selector, where the context stays a single element so the
inner break suffices.  (For larger limits or multi-element contexts the
break fails to bound the result, see the counterexample.) -/
theorem claimC6 :
    ∀ (s : St) (root : Nat) (sel : String) (limit : Nat) (out : List Nat),
      selectOp s root sel limit = .ok out →
      out.Nodup ∧
      (limit = 1 → (∀ g ∈ tokenize sel, splitKeep ',' [] g.data = [g]) →
        out.length ≤ 1) := by
  intro s root sel limit out h
  refine ⟨selectFueled_nodup _ s root sel none limit out h, ?_⟩
  intro h1 hcf
  subst h1
  exact selectFueled_len1 _ s root sel none out hcf h

/-- Claim C6 witness: `select("b", limit=1)` on `s6` returns exactly one
element, duplicate-free. -/
theorem claimC6_witness :
    selectOp s6 0 "b" 1 = .ok [2] ∧ [2].Nodup ∧ [2].length ≤ 1 := by
  have h := claimC6 s6 0 "b" 1 [2] (by decide)
  exact ⟨by decide, h.1, h.2 rfl (by decide)⟩

end Bs
